import Mathlib

/-!
# Verification of the pping-go packet-to-RTT pipeline

Shallow embedding of `pping.go` (passive TCP RTT measurement).

Modelling conventions:

* Go stores capture times, RTTs and the flow/TS tables' time fields as
  `float64` seconds.  Every time produced by the program is an exact
  multiple of one nanosecond (capture stamps are `Unix seconds +
  nanoseconds`, and all arithmetic on them is subtraction, negation and
  comparison).  We therefore represent each seconds-valued quantity `x`
  of the source as the integer `x * 1e9` (nanoseconds, type `Int`).
  This rescaling preserves every comparison and every subtraction in the
  source.  In particular Go's `1e30` min-RTT sentinel (seconds) becomes
  `10^39` nanoseconds, and `float64(tsvalMaxAge)/float64(time.Second)`
  (seconds) is just the `time.Duration` nanosecond count itself.
* Byte counters are `float64` in Go but only ever hold sums of packet
  lengths; they are represented as `Int`.
* Go maps (`flows`, `tsTbl`) hold pointers to records that are mutated
  in place; we use association lists with an update-in-place operation
  (`modifyTbl`) replacing the (unique) binding of a key.
* `fmt.Printf` output of an RTT sample is abstracted as a `Sample`
  record of the printed quantities; `fmtTimeDiff` is modelled over `ℚ`
  as the triple (scaled value, SI unit letter, chosen format string),
  abstracting `fmt.Sprintf`'s decimal rendering.
* `clockNow`/`nextFlush` (stdout flush pacing, wall-clock based) are
  omitted: they affect no table, counter or printed value.
* In `processPacket`, the write `flows[rev].bytesDep = fBytes` would
  crash in Go if the reverse record were missing; `modifyTbl` is a
  no-op there.  All claims concern states where the record is present.
-/

/-- Association-list lookup, first binding wins (mirrors a Go map read). -/
def lookupTbl {α : Type} : List (String × α) → String → Option α
  | [], _ => none
  | (k', v) :: rest, k => if k' = k then some v else lookupTbl rest k

/-- Replace the value bound to `k` (first binding) by `f` of it; no-op when
`k` is absent.  Mirrors mutating a Go map entry through its pointer. -/
def modifyTbl {α : Type} : List (String × α) → String → (α → α) → List (String × α)
  | [], _, _ => []
  | (k', v) :: rest, k, f =>
    if k' = k then (k', f v) :: rest else (k', v) :: modifyTbl rest k f

/-- `flowRec` of pping.go; times in nanoseconds, bytes exact. -/
structure flowRec where
  flowname : String
  last_tm : Int
  min : Int
  bytesSnt : Int
  lstBytesSnt : Int
  bytesDep : Int
  revFlow : Bool
deriving Repr, DecidableEq

/-- `tsInfo` of pping.go; `t` in nanoseconds. -/
structure tsInfo where
  t : Int
  fBytes : Int
  dBytes : Int
deriving Repr, DecidableEq

/-- Go's `min: 1e30` seconds sentinel, in nanoseconds. -/
def minSentinel : Int := 10 ^ 39

/-- Nanoseconds per second. -/
def nsPerSec : Int := 1000000000

/-- One TCP option as decoded by gopacket: kind, stated length, payload bytes. -/
structure TCPOption where
  kind : Nat
  length : Nat
  data : List Nat
deriving Repr, DecidableEq

/-- `layers.TCPOptionKindTimestamps`. -/
def tcpOptionKindTimestamps : Nat := 8

/-- `binary.BigEndian.Uint32` on the first four bytes of a byte list. -/
def beUint32 : List Nat → Nat
  | b0 :: b1 :: b2 :: b3 :: _ =>
    (b0 % 256) * 16777216 + (b1 % 256) * 65536 + (b2 % 256) * 256 + b3 % 256
  | _ => 0

/-- `getTSFromTCPOpts` of pping.go: scan the options for the first
Timestamps option of length 10 and read `(TSval, TSecr)` as two
big-endian 32-bit integers; `(0, 0)` when absent. -/
def getTSFromTCPOpts : List TCPOption → Nat × Nat
  | [] => (0, 0)
  | opt :: rest =>
    if opt.kind = tcpOptionKindTimestamps ∧ opt.length = 10 then
      (beUint32 opt.data, beUint32 (opt.data.drop 4))
    else getTSFromTCPOpts rest

/-- One decoded packet as seen by `processPacket`. -/
structure Packet where
  isTCP : Bool
  opts : List TCPOption
  syn : Bool
  netv4or6 : Bool
  srcIP : String
  dstIP : String
  srcPort : Nat
  dstPort : Nat
  tsSec : Int
  tsNsec : Nat
  length : Nat
deriving Repr, DecidableEq

/-- Run-time configuration used by the pipeline; durations in nanoseconds. -/
structure Config where
  maxFlows : Int
  filtLocal : Bool
  localIP : String
  tsvalMaxAge : Int
  flowMaxIdle : Int
deriving Repr, DecidableEq

/-- The mutable globals of pping.go touched by the pipeline. -/
structure PState where
  flows : List (String × flowRec)
  tsTbl : List (String × tsInfo)
  offTm : Int
  capTm : Int
  startm : Int
  pktCnt : Nat
  not_tcp : Nat
  no_TS : Nat
  not_v4or6 : Nat
  uniDir : Nat
  flowCnt : Int
deriving Repr, DecidableEq

/-- Initial values of the globals. -/
def initState : PState :=
  { flows := [], tsTbl := [], offTm := -1, capTm := 0, startm := 0,
    pktCnt := 0, not_tcp := 0, no_TS := 0, not_v4or6 := 0, uniDir := 0, flowCnt := 0 }

/-- The printed quantities of one emitted RTT sample, plus the TS-table
key that anchored it (recoverable from the flow key and `TSecr`). -/
structure Sample where
  rtt : Int
  minRtt : Int
  fBytes : Int
  dBytes : Int
  pBytes : Int
  flowname : String
  capTm : Int
  tsKey : String
deriving Repr, DecidableEq

/-- `addTS` of pping.go: insert-if-absent into the TS table. -/
def addTS (tbl : List (String × tsInfo)) (key : String) (ti : tsInfo) :
    List (String × tsInfo) :=
  match lookupTbl tbl key with
  | some _ => tbl
  | none => (key, ti) :: tbl

/-- `getTS` of pping.go. -/
def getTS (tbl : List (String × tsInfo)) (key : String) : Option tsInfo :=
  lookupTbl tbl key

/-- `srcStr` of `processPacket`. -/
def srcKey (pkt : Packet) : String := pkt.srcIP ++ ":" ++ toString pkt.srcPort

/-- `dstStr` of `processPacket`. -/
def dstKey (pkt : Packet) : String := pkt.dstIP ++ ":" ++ toString pkt.dstPort

/-- The forward flow key `srcStr+"+"+dstStr`. -/
def fwdKey (pkt : Packet) : String := srcKey pkt ++ "+" ++ dstKey pkt

/-- The reverse flow key `dstStr+"+"+srcStr`. -/
def revKey (pkt : Packet) : String := dstKey pkt ++ "+" ++ srcKey pkt

/-- The packet's wall-clock capture stamp in nanoseconds. -/
def pktTime (pkt : Packet) : Int := pkt.tsSec * nsPerSec + pkt.tsNsec

/-- Clock anchoring of `processPacket`: on the first useful packet record
`offTm`/`startm`; afterwards `capTm` is capture time relative to `offTm`. -/
def clockUpdate (s : PState) (pkt : Packet) : PState :=
  if s.offTm < 0 then
    { s with offTm := pkt.tsSec, startm := (pkt.tsNsec : Int),
             capTm := (pkt.tsNsec : Int) }
  else
    { s with capTm := (pkt.tsSec - s.offTm) * nsPerSec + pkt.tsNsec }

/-- `fr.bytesSnt = arr_fwd` as a record update. -/
def wrBytesSnt (arr : Int) (r : flowRec) : flowRec := { r with bytesSnt := arr }

/-- `if fr.min > rtt { fr.min = rtt }` as a record update. -/
def wrMin (rtt : Int) (r : flowRec) : flowRec :=
  if rtt < r.min then { r with min := rtt } else r

/-- `fr.lstBytesSnt = arr_fwd` as a record update. -/
def wrLst (arr : Int) (r : flowRec) : flowRec := { r with lstBytesSnt := arr }

/-- `flows[rev].bytesDep = fBytes` as a record update. -/
def wrDep (fB : Int) (r : flowRec) : flowRec := { r with bytesDep := fB }

/-- `fr.last_tm = capTm` as a record update. -/
def wrLastTm (tm : Int) (r : flowRec) : flowRec := { r with last_tm := tm }

/-- `.revFlow = true` as a record update. -/
def wrRev (r : flowRec) : flowRec := { r with revFlow := true }

/-- `ti.t = -t` (mark the matched entry consumed) as a record update. -/
def wrNegT (e : tsInfo) : tsInfo := { e with t := -e.t }

/-- The tail of `processPacket` after the bi-directionality gate: byte
accounting, TS insertion (unless local-filtered), echo match, sample
emission and consumption.  `fr` is the flow record the Go code holds a
pointer to (already carrying the `last_tm` write); `s.flows` holds the
same record under `fwdKey pkt`. -/
def processBidir (cfg : Config) (s : PState) (pkt : Packet) (tsval tsecr : Nat)
    (fr : flowRec) : PState × Option Sample :=
  let fstr := fwdKey pkt
  let rstr := revKey pkt
  let arr_fwd := fr.bytesSnt + (pkt.length : Int)
  let flowsC := modifyTbl s.flows fstr (wrBytesSnt arr_fwd)
  let tsTbl1 :=
    if ¬ cfg.filtLocal ∨ cfg.localIP ≠ pkt.dstIP then
      addTS s.tsTbl (fstr ++ "+" ++ toString tsval)
        { t := s.capTm, fBytes := arr_fwd, dBytes := fr.bytesDep }
    else s.tsTbl
  let tkey := rstr ++ "+" ++ toString tsecr
  match getTS tsTbl1 tkey with
  | some ti =>
    if 0 < ti.t then
      let t := ti.t
      let rtt := s.capTm - t
      let newMin := if rtt < fr.min then rtt else fr.min
      let flowsD := modifyTbl flowsC fstr (wrMin rtt)
      let flowsE := modifyTbl flowsD fstr (wrLst arr_fwd)
      let flowsF := modifyTbl flowsE rstr (wrDep ti.fBytes)
      let tsTbl2 := modifyTbl tsTbl1 tkey wrNegT
      ({ s with flows := flowsF, tsTbl := tsTbl2, pktCnt := s.pktCnt + 1 },
       some { rtt := rtt, minRtt := newMin, fBytes := ti.fBytes, dBytes := ti.dBytes,
              pBytes := arr_fwd - fr.lstBytesSnt, flowname := fstr,
              capTm := s.capTm, tsKey := tkey })
    else
      ({ s with flows := flowsC, tsTbl := tsTbl1, pktCnt := s.pktCnt + 1 }, none)
  | none =>
    ({ s with flows := flowsC, tsTbl := tsTbl1, pktCnt := s.pktCnt + 1 }, none)

/-- The record created for a new flow: `&flowRec{flowname: fstr, min: 1e30}`
(all other fields zero-valued). -/
def freshRec (fstr : String) : flowRec :=
  { flowname := fstr, last_tm := 0, min := minSentinel, bytesSnt := 0,
    lstBytesSnt := 0, bytesDep := 0, revFlow := false }

/-- Flow acquisition and bi-directionality gate of `processPacket`
(operating on the clock-updated state `s`). -/
def processFlow (cfg : Config) (s : PState) (pkt : Packet) (tsval tsecr : Nat) :
    PState × Option Sample :=
  let fstr := fwdKey pkt
  let rstr := revKey pkt
  match lookupTbl s.flows fstr with
  | some fr =>
    let flowsB := modifyTbl s.flows fstr (wrLastTm s.capTm)
    let fr1 := { fr with last_tm := s.capTm }
    if fr1.revFlow then processBidir cfg { s with flows := flowsB } pkt tsval tsecr fr1
    else ({ s with flows := flowsB, uniDir := s.uniDir + 1 }, none)
  | none =>
    if cfg.maxFlows ≤ s.flowCnt then (s, none)
    else
      let fr0 : flowRec := freshRec fstr
      let flows1 := (fstr, fr0) :: s.flows
      if (lookupTbl flows1 rstr).isSome then
        let flows2 := modifyTbl (modifyTbl flows1 rstr wrRev) fstr wrRev
        let flowsB := modifyTbl flows2 fstr (wrLastTm s.capTm)
        let fr2 := { fr0 with revFlow := true, last_tm := s.capTm }
        processBidir cfg { s with flows := flowsB, flowCnt := s.flowCnt + 1 }
          pkt tsval tsecr fr2
      else
        let flowsB := modifyTbl flows1 fstr (wrLastTm s.capTm)
        ({ s with flows := flowsB, flowCnt := s.flowCnt + 1, uniDir := s.uniDir + 1 },
         none)

/-- `processPacket` of pping.go.  Returns the updated globals and the
emitted RTT sample, if any. -/
def processPacket (cfg : Config) (s : PState) (pkt : Packet) : PState × Option Sample :=
  if ¬ pkt.isTCP then ({ s with not_tcp := s.not_tcp + 1 }, none)
  else
    let ts := getTSFromTCPOpts pkt.opts
    if ts.1 = 0 ∨ (ts.2 = 0 ∧ ¬ pkt.syn) then ({ s with no_TS := s.no_TS + 1 }, none)
    else if ¬ pkt.netv4or6 then ({ s with not_v4or6 := s.not_v4or6 + 1 }, none)
    else processFlow cfg (clockUpdate s pkt) pkt ts.1 ts.2

/-- `cleanUp` of pping.go: age out TS entries against `capTm` and idle
flows against `n`, decrementing `flowCnt` once per evicted flow. -/
def cleanUp (cfg : Config) (s : PState) (n : Int) : PState :=
  let tsTbl1 := s.tsTbl.filter (fun kti => ¬ cfg.tsvalMaxAge < s.capTm - |kti.2.t|)
  let flows1 := s.flows.filter (fun kfr => ¬ cfg.flowMaxIdle < n - kfr.2.last_tm)
  { s with tsTbl := tsTbl1, flows := flows1,
           flowCnt := s.flowCnt - ((s.flows.length : Int) - (flows1.length : Int)) }

/-- One event of the driving loop: a delivered packet, or an invocation
of `cleanUp(capTm)` as performed by `main`. -/
inductive Ev where
  | pkt (p : Packet)
  | clean
deriving Repr, DecidableEq

/-- One step of the driving loop. -/
def stepEv (cfg : Config) (s : PState) : Ev → PState × Option Sample
  | .pkt p => processPacket cfg s p
  | .clean => (cleanUp cfg s s.capTm, none)

/-- Run a list of events, collecting the emitted samples in order. -/
def runEvents (cfg : Config) (s : PState) : List Ev → PState × List Sample
  | [] => (s, [])
  | e :: rest =>
    let r := stepEv cfg s e
    let rr := runEvents cfg r.1 rest
    (rr.1, r.2.toList ++ rr.2)

/-- The packets of an event list, in order. -/
def pktsOf : List Ev → List Packet
  | [] => []
  | .pkt p :: rest => p :: pktsOf rest
  | .clean :: rest => pktsOf rest

/-- The intermediate states of a run (state after each event). -/
def statesFrom (cfg : Config) (s : PState) : List Ev → List PState
  | [] => []
  | e :: rest =>
    let s1 := (stepEv cfg s e).1
    s1 :: statesFrom cfg s1 rest

/-- The absolute wall-clock time tracked by the run state, in
nanoseconds: `capTm` is relative to the anchor second `offTm`. -/
def absTm (s : PState) : Int := s.capTm + s.offTm * nsPerSec

/-- Clock sanity of a run state: the relative capture time is
non-negative, the TS table is empty until the clock is anchored, and
every stored arrival time (consumed entries carry the negation) is
bounded by the current capture time. -/
def ClockInv (s : PState) : Prop :=
  0 ≤ s.capTm ∧ (s.offTm < 0 → s.tsTbl = []) ∧
    ∀ q ∈ s.tsTbl, -s.capTm ≤ q.2.t ∧ q.2.t ≤ s.capTm

/-- `fmtTimeDiff` of pping.go over exact rationals, abstracting
`fmt.Sprintf` as the triple (scaled value, SI unit letter, format
string). -/
def fmtTimeDiff (dt : ℚ) : ℚ × String × String :=
  let p : ℚ × String :=
    if dt < 1/1000 then (dt * 1000000, "u")
    else if dt < 1 then (dt * 1000, "m")
    else (dt, "")
  let fmtStr := if p.1 < 10 then "%.2f%ss" else if p.1 < 100 then "%.1f%ss" else " %.0f%ss"
  (p.1, p.2, fmtStr)

/-! ## Table lemmas -/

theorem lookupTbl_nil {α : Type} (k : String) : lookupTbl ([] : List (String × α)) k = none := rfl

theorem lookupTbl_cons {α : Type} (k' k : String) (v : α) (rest : List (String × α)) :
    lookupTbl ((k', v) :: rest) k = if k' = k then some v else lookupTbl rest k := rfl

theorem lookupTbl_modifyTbl_self {α : Type} (tbl : List (String × α)) (k : String) (f : α → α) :
    lookupTbl (modifyTbl tbl k f) k = (lookupTbl tbl k).map f := by
  induction tbl with
  | nil => rfl
  | cons hd tl ih =>
    obtain ⟨k', v⟩ := hd
    by_cases h : k' = k
    · simp [modifyTbl, lookupTbl, h]
    · simp [modifyTbl, lookupTbl, h, ih]

theorem lookupTbl_modifyTbl_ne {α : Type} (tbl : List (String × α)) (k k' : String)
    (f : α → α) (h : k' ≠ k) :
    lookupTbl (modifyTbl tbl k f) k' = lookupTbl tbl k' := by
  induction tbl with
  | nil => rfl
  | cons hd tl ih =>
    obtain ⟨k0, v⟩ := hd
    by_cases h0 : k0 = k
    · subst h0
      have h1 : k0 ≠ k' := fun hh => h hh.symm
      simp [modifyTbl, lookupTbl, h1]
    · by_cases h1 : k0 = k'
      · simp [modifyTbl, lookupTbl, h0, h1, h]
      · simp [modifyTbl, lookupTbl, h0, h1, ih]

theorem lookupTbl_addTS_of_isSome (tbl : List (String × tsInfo)) (k : String) (ti e : tsInfo)
    (h : lookupTbl tbl k = some e) : addTS tbl k ti = tbl := by
  simp [addTS, h]

theorem lookupTbl_addTS_of_none (tbl : List (String × tsInfo)) (k : String) (ti : tsInfo)
    (h : lookupTbl tbl k = none) :
    addTS tbl k ti = (k, ti) :: tbl := by
  simp [addTS, h]

theorem lookupTbl_addTS_ne (tbl : List (String × tsInfo)) (k k' : String) (ti : tsInfo)
    (h : k' ≠ k) : lookupTbl (addTS tbl k ti) k' = lookupTbl tbl k' := by
  unfold addTS
  cases hl : lookupTbl tbl k with
  | some e => rfl
  | none =>
    have h1 : k ≠ k' := fun hh => h hh.symm
    simp [lookupTbl_cons, h1]

theorem modifyTbl_length {α : Type} (tbl : List (String × α)) (k : String) (f : α → α) :
    (modifyTbl tbl k f).length = tbl.length := by
  induction tbl with
  | nil => rfl
  | cons hd tl ih =>
    obtain ⟨k0, v⟩ := hd
    by_cases h : k0 = k <;> simp [modifyTbl, h, ih]

theorem lookupTbl_modifyTbl_map {α β : Type} (tbl : List (String × α)) (k k' : String)
    (f : α → α) (g : α → β) (hf : ∀ r, g (f r) = g r) :
    (lookupTbl (modifyTbl tbl k f) k').map g = (lookupTbl tbl k' ).map g := by
  by_cases h : k' = k
  · subst h
    rw [lookupTbl_modifyTbl_self]
    cases lookupTbl tbl k' with
    | none => rfl
    | some v => simp [hf]
  · rw [lookupTbl_modifyTbl_ne _ _ _ _ h]

theorem lookupTbl_modifyTbl_isSome {α : Type} (tbl : List (String × α)) (k k' : String)
    (f : α → α) :
    (lookupTbl (modifyTbl tbl k f) k').isSome = (lookupTbl tbl k').isSome := by
  by_cases h : k' = k
  · subst h
    rw [lookupTbl_modifyTbl_self]
    cases lookupTbl tbl k' <;> rfl
  · rw [lookupTbl_modifyTbl_ne _ _ _ _ h]

theorem processBidir_shape (cfg : Config) (s : PState) (pkt : Packet) (tsval tsecr : Nat)
    (fr : flowRec) :
    ∃ fl tb out, processBidir cfg s pkt tsval tsecr fr =
      ({ s with flows := fl, tsTbl := tb, pktCnt := s.pktCnt + 1 }, out) := by
  simp only [processBidir]
  repeat' split
  all_goals exact ⟨_, _, _, rfl⟩

theorem processFlow_shape (cfg : Config) (s : PState) (pkt : Packet) (tsval tsecr : Nat) :
    ∃ fl tb pc ud fc out, processFlow cfg s pkt tsval tsecr =
      ({ s with flows := fl, tsTbl := tb, pktCnt := pc, uniDir := ud, flowCnt := fc }, out) := by
  simp only [processFlow]
  split
  · split
    · obtain ⟨fl, tb, out, h⟩ := processBidir_shape cfg _ pkt tsval tsecr _
      rw [h]
      exact ⟨fl, tb, _, _, _, out, rfl⟩
    · exact ⟨_, _, _, _, _, _, rfl⟩
  · split
    · exact ⟨_, _, _, _, _, _, rfl⟩
    · split
      · obtain ⟨fl, tb, out, h⟩ := processBidir_shape cfg _ pkt tsval tsecr _
        rw [h]
        exact ⟨fl, tb, _, _, _, out, rfl⟩
      · exact ⟨_, _, _, _, _, _, rfl⟩

theorem clockUpdate_fields (s : PState) (pkt : Packet) :
    (clockUpdate s pkt).flows = s.flows ∧ (clockUpdate s pkt).tsTbl = s.tsTbl ∧
    (clockUpdate s pkt).pktCnt = s.pktCnt ∧ (clockUpdate s pkt).not_tcp = s.not_tcp ∧
    (clockUpdate s pkt).no_TS = s.no_TS ∧ (clockUpdate s pkt).not_v4or6 = s.not_v4or6 ∧
    (clockUpdate s pkt).uniDir = s.uniDir ∧ (clockUpdate s pkt).flowCnt = s.flowCnt := by
  unfold clockUpdate
  split <;> exact ⟨rfl, rfl, rfl, rfl, rfl, rfl, rfl, rfl⟩

theorem processFlow_counters (cfg : Config) (s : PState) (pkt : Packet) (tsval tsecr : Nat) :
    (processFlow cfg s pkt tsval tsecr).1.no_TS = s.no_TS ∧
    (processFlow cfg s pkt tsval tsecr).1.not_tcp = s.not_tcp ∧
    (processFlow cfg s pkt tsval tsecr).1.not_v4or6 = s.not_v4or6 := by
  obtain ⟨fl, tb, pc, ud, fc, out, h⟩ := processFlow_shape cfg s pkt tsval tsecr
  rw [h]
  exact ⟨rfl, rfl, rfl⟩

/-- The TS-eligibility condition of `processPacket` (failure case). -/
def noTSCond (pkt : Packet) : Prop :=
  (getTSFromTCPOpts pkt.opts).1 = 0 ∨ ((getTSFromTCPOpts pkt.opts).2 = 0 ∧ pkt.syn = false)

instance (pkt : Packet) : Decidable (noTSCond pkt) := by
  unfold noTSCond
  infer_instance

theorem processPacket_not_tcp (cfg : Config) (s : PState) (pkt : Packet)
    (htcp : pkt.isTCP = false) :
    processPacket cfg s pkt = ({ s with not_tcp := s.not_tcp + 1 }, none) := by
  simp [processPacket, htcp]

theorem processPacket_ineligible (cfg : Config) (s : PState) (pkt : Packet)
    (htcp : pkt.isTCP = true) (hel : noTSCond pkt) :
    processPacket cfg s pkt = ({ s with no_TS := s.no_TS + 1 }, none) := by
  unfold noTSCond at hel
  simp only [processPacket, htcp, Bool.not_eq_true, Bool.true_eq_false, not_false_eq_true,
    not_true_eq_false, if_false, if_true]
  rw [if_pos]
  simpa [Bool.not_eq_true] using hel

theorem processPacket_not_ip (cfg : Config) (s : PState) (pkt : Packet)
    (htcp : pkt.isTCP = true) (hel : ¬ noTSCond pkt) (hip : pkt.netv4or6 = false) :
    processPacket cfg s pkt = ({ s with not_v4or6 := s.not_v4or6 + 1 }, none) := by
  unfold noTSCond at hel
  simp only [processPacket, htcp, Bool.not_eq_true, Bool.true_eq_false, not_false_eq_true,
    not_true_eq_false, if_false, if_true, hip]
  rw [if_neg]
  simpa [Bool.not_eq_true] using hel

theorem processPacket_eligible (cfg : Config) (s : PState) (pkt : Packet)
    (htcp : pkt.isTCP = true) (hel : ¬ noTSCond pkt) (hip : pkt.netv4or6 = true) :
    processPacket cfg s pkt =
      processFlow cfg (clockUpdate s pkt) pkt
        (getTSFromTCPOpts pkt.opts).1 (getTSFromTCPOpts pkt.opts).2 := by
  unfold noTSCond at hel
  simp only [processPacket, htcp, Bool.not_eq_true, Bool.true_eq_false, not_false_eq_true,
    not_true_eq_false, if_false, if_true, hip]
  rw [if_neg]
  simpa [Bool.not_eq_true] using hel

/-! ## Concrete fixtures for witnesses and counterexamples -/

/-- A well-formed TCP Timestamps option carrying `(v, e)` big-endian. -/
def tsOpt (v e : Nat) : TCPOption :=
  { kind := 8, length := 10,
    data := [v / 16777216 % 256, v / 65536 % 256, v / 256 % 256, v % 256,
             e / 16777216 % 256, e / 65536 % 256, e / 256 % 256, e % 256] }

/-- A concrete TCP/IPv4 packet with a Timestamps option. -/
def mkPkt (sip : String) (sp : Nat) (dip : String) (dp : Nat) (v e : Nat)
    (syn : Bool) (sec : Int) (nsec : Nat) : Packet :=
  { isTCP := true, opts := [tsOpt v e], syn := syn, netv4or6 := true,
    srcIP := sip, dstIP := dip, srcPort := sp, dstPort := dp,
    tsSec := sec, tsNsec := nsec, length := 100 }

/-- Default-like configuration with local-traffic filtering off. -/
def cfgOpen : Config :=
  { maxFlows := 10000, filtLocal := false, localIP := "",
    tsvalMaxAge := 10000000000, flowMaxIdle := 300000000000 }

/-! ## C7: TS-table insertion is insert-if-absent -/

/-- C7: inserting at an occupied key (pending or consumed entry alike)
leaves the table unchanged, so the earliest CP-arrival entry for a
`(flow_key, TSval)` pair is preserved; at a free key the new entry is
stored and every other key is untouched. -/
theorem C7_addTS_first_writer_wins (tbl : List (String × tsInfo)) (k k' : String)
    (ti : tsInfo) :
    ((lookupTbl tbl k).isSome = true → addTS tbl k ti = tbl) ∧
    (lookupTbl tbl k = none →
      lookupTbl (addTS tbl k ti) k = some ti ∧
      (k' ≠ k → lookupTbl (addTS tbl k ti) k' = lookupTbl tbl k')) := by
  constructor
  · intro h
    obtain ⟨e, he⟩ := Option.isSome_iff_exists.mp h
    exact lookupTbl_addTS_of_isSome tbl k ti e he
  · intro h
    rw [lookupTbl_addTS_of_none tbl k ti h]
    refine ⟨by simp [lookupTbl_cons], ?_⟩
    intro hne
    have h1 : k ≠ k' := fun hh => hne hh.symm
    simp [lookupTbl_cons, h1]

theorem C7_addTS_first_writer_wins_witness :
    addTS [("f+100", ⟨5, 1, 2⟩)] "f+100" ⟨9, 9, 9⟩ = [("f+100", ⟨5, 1, 2⟩)] ∧
    lookupTbl (addTS [("f+100", ⟨5, 1, 2⟩)] "f+101" ⟨9, 9, 9⟩) "f+101" = some ⟨9, 9, 9⟩ ∧
    lookupTbl (addTS [("f+100", ⟨5, 1, 2⟩)] "f+101" ⟨9, 9, 9⟩) "f+100" =
      lookupTbl [("f+100", (⟨5, 1, 2⟩ : tsInfo))] "f+100" :=
  ⟨(C7_addTS_first_writer_wins _ "f+100" "f+101" _).1 (by decide),
   ((C7_addTS_first_writer_wins _ "f+101" "f+100" _).2 (by decide)).1,
   ((C7_addTS_first_writer_wins _ "f+101" "f+100" _).2 (by decide)).2 (by decide)⟩

/-! ## C9: fmtTimeDiff scaling and format selection -/

/-- C9: for non-negative `dt`, the time-diff formatter scales by `1e6`
with unit letter `u` when `dt < 1e-3`, else by `1e3` with unit `m` when
`dt < 1`, else leaves `dt` unscaled with an empty unit; the format
string is `%.2f` for scaled value below 10, `%.1f` below 100, and
` %.0f` (leading space) at or above 100, each followed by the unit
letter and `s`. -/
theorem C9_fmtTimeDiff_spec (dt : ℚ) (h : 0 ≤ dt) :
    ((dt < 1/1000 → (fmtTimeDiff dt).1 = dt * 1000000 ∧ (fmtTimeDiff dt).2.1 = "u") ∧
     (¬ dt < 1/1000 → dt < 1 → (fmtTimeDiff dt).1 = dt * 1000 ∧ (fmtTimeDiff dt).2.1 = "m") ∧
     (¬ dt < 1 → (fmtTimeDiff dt).1 = dt ∧ (fmtTimeDiff dt).2.1 = "")) ∧
    (((fmtTimeDiff dt).1 < 10 → (fmtTimeDiff dt).2.2 = "%.2f%ss") ∧
     (10 ≤ (fmtTimeDiff dt).1 → (fmtTimeDiff dt).1 < 100 → (fmtTimeDiff dt).2.2 = "%.1f%ss") ∧
     (100 ≤ (fmtTimeDiff dt).1 → (fmtTimeDiff dt).2.2 = " %.0f%ss")) := by
  by_cases h1 : dt < 1/1000
  · have h2 : dt < 1 := lt_trans h1 (by norm_num)
    simp only [fmtTimeDiff, if_pos h1]
    refine ⟨⟨fun _ => ⟨trivial, trivial⟩, fun hc => absurd h1 hc, fun hc => absurd h2 hc⟩, ?_⟩
    refine ⟨fun hv => by rw [if_pos hv], fun hv10 hv100 => ?_, fun hv => ?_⟩
    · rw [if_neg (not_lt.mpr hv10), if_pos hv100]
    · rw [if_neg (not_lt.mpr (le_trans (by norm_num) hv)),
          if_neg (not_lt.mpr hv)]
  · by_cases h2 : dt < 1
    · simp only [fmtTimeDiff, if_neg h1, if_pos h2]
      refine ⟨⟨fun hc => absurd hc h1, fun _ _ => ⟨trivial, trivial⟩, fun hc => absurd h2 hc⟩, ?_⟩
      refine ⟨fun hv => by rw [if_pos hv], fun hv10 hv100 => ?_, fun hv => ?_⟩
      · rw [if_neg (not_lt.mpr hv10), if_pos hv100]
      · rw [if_neg (not_lt.mpr (le_trans (by norm_num) hv)),
            if_neg (not_lt.mpr hv)]
    · simp only [fmtTimeDiff, if_neg h1, if_neg h2]
      refine ⟨⟨fun hc => absurd hc h1, fun _ hc => absurd hc h2, fun _ => ⟨trivial, trivial⟩⟩, ?_⟩
      refine ⟨fun hv => by rw [if_pos hv], fun hv10 hv100 => ?_, fun hv => ?_⟩
      · rw [if_neg (not_lt.mpr hv10), if_pos hv100]
      · rw [if_neg (not_lt.mpr (le_trans (by norm_num) hv)),
            if_neg (not_lt.mpr hv)]

theorem C9_fmtTimeDiff_spec_witness :
    (fmtTimeDiff (1/20)).1 = (1/20 : ℚ) * 1000 ∧ (fmtTimeDiff (1/20)).2.1 = "m" ∧
    (fmtTimeDiff (1/20)).2.2 = "%.1f%ss" := by
  have hm := (C9_fmtTimeDiff_spec (1/20) (by norm_num)).1.2.1 (by norm_num) (by norm_num)
  have hv : (fmtTimeDiff (1/20)).1 = 50 := by rw [hm.1]; norm_num
  have hf := (C9_fmtTimeDiff_spec (1/20) (by norm_num)).2.2.1
    (by rw [hv]; norm_num) (by rw [hv]; norm_num)
  exact ⟨hm.1, hm.2, hf⟩

/-! ## C4: the no-TS eligibility rule -/

/-- C4: a TCP packet is counted as `no_TS` and dropped (state otherwise
untouched, nothing emitted) exactly when the extracted `TSval` is zero,
or `TSecr` is zero while the SYN flag is clear; a SYN with `TSecr = 0`
and nonzero `TSval` passes the check, and a non-SYN with `TSecr = 0`
is rejected. -/
theorem C4_noTS_iff (cfg : Config) (s : PState) (pkt : Packet)
    (htcp : pkt.isTCP = true) :
    (processPacket cfg s pkt = ({ s with no_TS := s.no_TS + 1 }, none) ↔ noTSCond pkt) ∧
    (pkt.syn = true → (getTSFromTCPOpts pkt.opts).2 = 0 →
      (getTSFromTCPOpts pkt.opts).1 ≠ 0 →
      (processPacket cfg s pkt).1.no_TS = s.no_TS) ∧
    (pkt.syn = false → (getTSFromTCPOpts pkt.opts).2 = 0 →
      processPacket cfg s pkt = ({ s with no_TS := s.no_TS + 1 }, none)) := by
  have hpass : ¬ noTSCond pkt → (processPacket cfg s pkt).1.no_TS = s.no_TS := by
    intro hc
    by_cases hip : pkt.netv4or6 = true
    · rw [processPacket_eligible cfg s pkt htcp hc hip]
      rw [(processFlow_counters cfg (clockUpdate s pkt) pkt _ _).1]
      exact (clockUpdate_fields s pkt).2.2.2.2.1
    · rw [processPacket_not_ip cfg s pkt htcp hc (Bool.not_eq_true _ ▸ hip)]
  refine ⟨⟨?_, processPacket_ineligible cfg s pkt htcp⟩, ?_, ?_⟩
  · intro h
    by_contra hc
    have := hpass hc
    rw [h] at this
    simp at this
  · intro hsyn hecr hval
    refine hpass ?_
    intro hc
    rcases hc with hc | hc
    · exact hval hc
    · rw [hsyn] at hc
      exact absurd hc.2 (by simp)
  · intro hsyn hecr
    exact processPacket_ineligible cfg s pkt htcp (Or.inr ⟨hecr, hsyn⟩)

theorem C4_noTS_iff_witness :
    (processPacket cfgOpen initState
        (mkPkt "10.0.0.1" 1000 "10.0.0.2" 2000 100 0 true 1000 0)).1.no_TS =
      initState.no_TS ∧
    processPacket cfgOpen initState
        (mkPkt "10.0.0.1" 1000 "10.0.0.2" 2000 100 0 false 1000 0) =
      ({ initState with no_TS := initState.no_TS + 1 }, none) := by
  constructor
  · exact (C4_noTS_iff cfgOpen initState _ (by decide)).2.1 (by decide) (by decide) (by decide)
  · exact (C4_noTS_iff cfgOpen initState _ (by decide)).2.2 (by decide) (by decide)

/-! ## Field-preservation facts for the record updates -/

theorem wrBytesSnt_rev (a : Int) : ∀ r, (wrBytesSnt a r).revFlow = r.revFlow := fun _ => rfl

theorem wrMin_rev (rtt : Int) : ∀ r, (wrMin rtt r).revFlow = r.revFlow := by
  intro r; unfold wrMin; split <;> rfl

theorem wrLst_rev (a : Int) : ∀ r, (wrLst a r).revFlow = r.revFlow := fun _ => rfl

theorem wrDep_rev (fB : Int) : ∀ r, (wrDep fB r).revFlow = r.revFlow := fun _ => rfl

theorem wrLastTm_rev (tm : Int) : ∀ r, (wrLastTm tm r).revFlow = r.revFlow := fun _ => rfl

theorem wrBytesSnt_min (a : Int) : ∀ r, (wrBytesSnt a r).min ≤ r.min := fun _ => le_refl _

theorem wrMin_min (rtt : Int) : ∀ r, (wrMin rtt r).min ≤ r.min := by
  intro r; unfold wrMin; split
  · exact le_of_lt (by assumption)
  · exact le_refl _

theorem wrLst_min (a : Int) : ∀ r, (wrLst a r).min ≤ r.min := fun _ => le_refl _

theorem wrDep_min (fB : Int) : ∀ r, (wrDep fB r).min ≤ r.min := fun _ => le_refl _

theorem wrLastTm_min (tm : Int) : ∀ r, (wrLastTm tm r).min ≤ r.min := fun _ => le_refl _

theorem wrRev_min : ∀ r : flowRec, (wrRev r).min ≤ r.min := fun _ => le_refl _

theorem wrMin_bytes (rtt : Int) : ∀ r, (wrMin rtt r).bytesSnt = r.bytesSnt := by
  intro r; unfold wrMin; split <;> rfl

theorem wrLst_bytes (a : Int) : ∀ r, (wrLst a r).bytesSnt = r.bytesSnt := fun _ => rfl

theorem wrDep_bytes (fB : Int) : ∀ r, (wrDep fB r).bytesSnt = r.bytesSnt := fun _ => rfl

theorem wrMin_minEq (rtt : Int) (r : flowRec) :
    (wrMin rtt r).min = if rtt < r.min then rtt else r.min := by
  unfold wrMin; split <;> simp_all

theorem wrLst_minEq (a : Int) : ∀ r, (wrLst a r).min = r.min := fun _ => rfl

theorem wrDep_minEq (fB : Int) : ∀ r, (wrDep fB r).min = r.min := fun _ => rfl

/-! ## Membership and eviction lemmas for tables -/

theorem lookupTbl_mem_keys {α : Type} (tbl : List (String × α)) (k : String) (v : α)
    (h : lookupTbl tbl k = some v) : k ∈ tbl.map Prod.fst := by
  induction tbl with
  | nil => simp [lookupTbl] at h
  | cons hd tl ih =>
    obtain ⟨k0, v0⟩ := hd
    by_cases hk : k0 = k
    · simp [hk]
    · rw [lookupTbl_cons, if_neg hk] at h
      simp [ih h]

theorem lookupTbl_eq_none_of_not_mem {α : Type} (tbl : List (String × α)) (k : String)
    (h : k ∉ tbl.map Prod.fst) : lookupTbl tbl k = none := by
  induction tbl with
  | nil => rfl
  | cons hd tl ih =>
    obtain ⟨k0, v0⟩ := hd
    simp only [List.map_cons, List.mem_cons] at h
    push_neg at h
    rw [lookupTbl_cons, if_neg (fun hh => h.1 hh.symm)]
    exact ih h.2

theorem lookupTbl_filter {α : Type} (tbl : List (String × α)) (p : String × α → Bool)
    (k : String) (v : α) (hnd : (tbl.map Prod.fst).Nodup)
    (h : lookupTbl (tbl.filter p) k = some v) :
    lookupTbl tbl k = some v ∧ p (k, v) = true := by
  induction tbl with
  | nil => simp [lookupTbl] at h
  | cons hd tl ih =>
    obtain ⟨k0, v0⟩ := hd
    simp only [List.map_cons, List.nodup_cons] at hnd
    by_cases hp : p (k0, v0)
    · rw [List.filter_cons_of_pos hp] at h
      by_cases hk : k0 = k
      · subst hk
        rw [lookupTbl_cons, if_pos rfl] at h ⊢
        cases h
        exact ⟨rfl, hp⟩
      · rw [lookupTbl_cons, if_neg hk] at h ⊢
        exact ih hnd.2 h
    · rw [List.filter_cons_of_neg hp] at h
      by_cases hk : k0 = k
      · subst hk
        exfalso
        have := lookupTbl_mem_keys _ _ _ ((ih hnd.2 h).1)
        exact hnd.1 this
      · rw [lookupTbl_cons, if_neg hk]
        exact ih hnd.2 h

theorem lookupTbl_filter_none_of_bad {α : Type} (tbl : List (String × α))
    (p : String × α → Bool) (k : String) (v : α) (hnd : (tbl.map Prod.fst).Nodup)
    (hmem : lookupTbl tbl k = some v) (hbad : p (k, v) = false) :
    lookupTbl (tbl.filter p) k = none := by
  induction tbl with
  | nil => rfl
  | cons hd tl ih =>
    obtain ⟨k0, v0⟩ := hd
    simp only [List.map_cons, List.nodup_cons] at hnd
    by_cases hk : k0 = k
    · subst hk
      rw [lookupTbl_cons, if_pos rfl] at hmem
      cases hmem
      rw [List.filter_cons_of_neg (by simp [hbad])]
      exact lookupTbl_eq_none_of_not_mem _ _ (by
        intro hc
        exact hnd.1 (((List.filter_sublist tl).map Prod.fst).subset hc))
    · rw [lookupTbl_cons, if_neg hk] at hmem
      by_cases hp : p (k0, v0)
      · rw [List.filter_cons_of_pos hp, lookupTbl_cons, if_neg hk]
        exact ih hnd.2 hmem
      · rw [List.filter_cons_of_neg hp]
        exact ih hnd.2 hmem

theorem lookupTbl_modifyTbl_minLe (tbl : List (String × flowRec)) (k k' : String)
    (f : flowRec → flowRec) (hf : ∀ r, (f r).min ≤ r.min) (v' : flowRec)
    (h : lookupTbl (modifyTbl tbl k f) k' = some v') :
    ∃ v, lookupTbl tbl k' = some v ∧ v'.min ≤ v.min := by
  by_cases hk : k' = k
  · subst hk
    rw [lookupTbl_modifyTbl_self] at h
    cases hv : lookupTbl tbl k' with
    | none => rw [hv] at h; exact absurd h (by simp)
    | some v =>
      rw [hv] at h
      simp only [Option.map_some'] at h
      cases h
      exact ⟨v, rfl, hf v⟩
  · rw [lookupTbl_modifyTbl_ne _ _ _ _ hk] at h
    exact ⟨v', h, le_refl _⟩

theorem processBidir_flows_revFlow (cfg : Config) (s : PState) (pkt : Packet)
    (tsval tsecr : Nat) (fr : flowRec) (k : String) :
    (lookupTbl (processBidir cfg s pkt tsval tsecr fr).1.flows k).map flowRec.revFlow =
      (lookupTbl s.flows k).map flowRec.revFlow := by
  simp only [processBidir]
  split
  · split
    · dsimp only
      rw [lookupTbl_modifyTbl_map _ _ _ _ _ (wrDep_rev _),
          lookupTbl_modifyTbl_map _ _ _ _ _ (wrLst_rev _),
          lookupTbl_modifyTbl_map _ _ _ _ _ (wrMin_rev _),
          lookupTbl_modifyTbl_map _ _ _ _ _ (wrBytesSnt_rev _)]
    · dsimp only
      rw [lookupTbl_modifyTbl_map _ _ _ _ _ (wrBytesSnt_rev _)]
  · dsimp only
    rw [lookupTbl_modifyTbl_map _ _ _ _ _ (wrBytesSnt_rev _)]

theorem processBidir_flows_minLe (cfg : Config) (s : PState) (pkt : Packet)
    (tsval tsecr : Nat) (fr : flowRec) (k : String) (fr1 : flowRec)
    (h : lookupTbl (processBidir cfg s pkt tsval tsecr fr).1.flows k = some fr1) :
    ∃ fr0, lookupTbl s.flows k = some fr0 ∧ fr1.min ≤ fr0.min := by
  revert h
  simp only [processBidir]
  split
  · split
    · dsimp only
      intro h
      obtain ⟨v3, h3, le3⟩ := lookupTbl_modifyTbl_minLe _ _ _ _ (wrDep_min _) _ h
      obtain ⟨v2, h2, le2⟩ := lookupTbl_modifyTbl_minLe _ _ _ _ (wrLst_min _) _ h3
      obtain ⟨v1, h1, le1⟩ := lookupTbl_modifyTbl_minLe _ _ _ _ (wrMin_min _) _ h2
      obtain ⟨v0, h0, le0⟩ := lookupTbl_modifyTbl_minLe _ _ _ _ (wrBytesSnt_min _) _ h1
      exact ⟨v0, h0, le_trans le3 (le_trans le2 (le_trans le1 le0))⟩
    · dsimp only
      intro h
      obtain ⟨v0, h0, le0⟩ := lookupTbl_modifyTbl_minLe _ _ _ _ (wrBytesSnt_min _) _ h
      exact ⟨v0, h0, le0⟩
  · dsimp only
    intro h
    obtain ⟨v0, h0, le0⟩ := lookupTbl_modifyTbl_minLe _ _ _ _ (wrBytesSnt_min _) _ h
    exact ⟨v0, h0, le0⟩

theorem processBidir_bytesSnt (cfg : Config) (s : PState) (pkt : Packet)
    (tsval tsecr : Nat) (fr : flowRec)
    (hfr : lookupTbl s.flows (fwdKey pkt) = some fr) :
    (lookupTbl (processBidir cfg s pkt tsval tsecr fr).1.flows (fwdKey pkt)).map
        flowRec.bytesSnt = some (fr.bytesSnt + (pkt.length : Int)) := by
  simp only [processBidir]
  split
  · split
    · dsimp only
      rw [lookupTbl_modifyTbl_map _ _ _ _ _ (wrDep_bytes _),
          lookupTbl_modifyTbl_map _ _ _ _ _ (wrLst_bytes _),
          lookupTbl_modifyTbl_map _ _ _ _ _ (wrMin_bytes _),
          lookupTbl_modifyTbl_self, hfr]
      rfl
    · dsimp only
      rw [lookupTbl_modifyTbl_self, hfr]
      rfl
  · dsimp only
    rw [lookupTbl_modifyTbl_self, hfr]
    rfl

theorem processBidir_emit_min (cfg : Config) (s : PState) (pkt : Packet)
    (tsval tsecr : Nat) (fr : flowRec) (smp : Sample)
    (hfr : lookupTbl s.flows (fwdKey pkt) = some fr)
    (h : (processBidir cfg s pkt tsval tsecr fr).2 = some smp) :
    (lookupTbl (processBidir cfg s pkt tsval tsecr fr).1.flows (fwdKey pkt)).map
        flowRec.min = some smp.minRtt ∧ smp.minRtt ≤ smp.rtt := by
  revert h
  simp only [processBidir]
  split
  · split
    · dsimp only
      intro h
      injection h with h
      subst h
      constructor
      · rw [lookupTbl_modifyTbl_map _ _ _ _ _ (wrDep_minEq _),
            lookupTbl_modifyTbl_map _ _ _ _ _ (wrLst_minEq _),
            lookupTbl_modifyTbl_self, lookupTbl_modifyTbl_self, hfr]
        simp [wrMin_minEq, wrBytesSnt]
      · dsimp only
        split
        · exact le_refl _
        · rename_i hnl
          exact le_of_not_lt hnl
    · intro h
      simp at h
  · intro h
    simp at h

/-- Where a TS-table entry visible after the (possibly skipped) insertion
step comes from: it was already present, or it is the entry this packet
deposited (stamped with the current `capTm`). -/
theorem addTS_step_lookup (tbl : List (String × tsInfo)) (ik tk : String) (x ti : tsInfo)
    (h : lookupTbl (addTS tbl ik x) tk = some ti) :
    lookupTbl tbl tk = some ti ∨ (lookupTbl tbl tk = none ∧ ti = x) := by
  cases hik : lookupTbl tbl ik with
  | some e =>
    rw [lookupTbl_addTS_of_isSome tbl ik x e hik] at h
    exact Or.inl h
  | none =>
    rw [lookupTbl_addTS_of_none tbl ik x hik] at h
    rw [lookupTbl_cons] at h
    by_cases hk : ik = tk
    · rw [if_pos hk] at h
      cases h
      exact Or.inr ⟨hk ▸ hik, rfl⟩
    · rw [if_neg hk] at h
      exact Or.inl h

theorem processBidir_emit (cfg : Config) (s : PState) (pkt : Packet)
    (tsval tsecr : Nat) (fr : flowRec) (smp : Sample)
    (h : (processBidir cfg s pkt tsval tsecr fr).2 = some smp) :
    smp.tsKey = revKey pkt ++ "+" ++ toString tsecr ∧
    smp.flowname = fwdKey pkt ∧
    smp.capTm = s.capTm ∧
    smp.minRtt ≤ smp.rtt ∧
    (∃ ti : tsInfo, 0 < ti.t ∧ smp.rtt = s.capTm - ti.t ∧
      (lookupTbl s.tsTbl smp.tsKey = some ti ∨
       (lookupTbl s.tsTbl smp.tsKey = none ∧ ti.t = s.capTm))) ∧
    (∃ e1 : tsInfo, lookupTbl (processBidir cfg s pkt tsval tsecr fr).1.tsTbl
        smp.tsKey = some e1 ∧ e1.t < 0) := by
  revert h
  simp only [processBidir]
  split
  · rename_i ti hti
    split
    · rename_i hpos
      dsimp only
      intro h
      injection h with h
      subst h
      refine ⟨rfl, rfl, rfl, ?_, ?_, ?_⟩
      · dsimp only
        split
        · exact le_refl _
        · rename_i hnl
          exact le_of_not_lt hnl
      · refine ⟨ti, hpos, rfl, ?_⟩
        revert hti
        unfold getTS
        split
        · rename_i hfl
          intro hti
          rcases addTS_step_lookup _ _ _ _ _ hti with hc | ⟨hc, rfl⟩
          · exact Or.inl hc
          · exact Or.inr ⟨hc, rfl⟩
        · intro hti
          exact Or.inl hti
      · dsimp only
        refine ⟨wrNegT ti, ?_, ?_⟩
        · rw [lookupTbl_modifyTbl_self]
          have : lookupTbl
              (if ¬cfg.filtLocal = true ∨ cfg.localIP ≠ pkt.dstIP then
                addTS s.tsTbl (fwdKey pkt ++ "+" ++ toString tsval)
                  { t := s.capTm, fBytes := fr.bytesSnt + (pkt.length : Int),
                    dBytes := fr.bytesDep }
              else s.tsTbl)
              (revKey pkt ++ "+" ++ toString tsecr) = some ti := hti
          rw [this]
          rfl
        · show -ti.t < 0
          omega
    · intro h
      simp at h
  · intro h
    simp at h

theorem lookupTbl_addTS_pres (tbl : List (String × tsInfo)) (ik k : String)
    (x e0 : tsInfo) (hk : lookupTbl tbl k = some e0) :
    lookupTbl (addTS tbl ik x) k = some e0 := by
  cases hik : lookupTbl tbl ik with
  | some e => rw [lookupTbl_addTS_of_isSome tbl ik x e hik]; exact hk
  | none =>
    rw [lookupTbl_addTS_of_none tbl ik x hik, lookupTbl_cons, if_neg]
    · exact hk
    · intro hh
      rw [hh, hk] at hik
      cases hik

theorem lookupTbl_ite_addTS (c : Prop) [Decidable c] (tbl : List (String × tsInfo))
    (ik k : String) (x e1 : tsInfo)
    (h : lookupTbl (if c then addTS tbl ik x else tbl) k = some e1) :
    lookupTbl tbl k = some e1 ∨ (lookupTbl tbl k = none ∧ e1 = x) := by
  split at h
  · exact addTS_step_lookup _ _ _ _ _ h
  · exact Or.inl h

theorem lookupTbl_ite_addTS_pres (c : Prop) [Decidable c] (tbl : List (String × tsInfo))
    (ik k : String) (x e0 : tsInfo) (hk : lookupTbl tbl k = some e0) :
    lookupTbl (if c then addTS tbl ik x else tbl) k = some e0 := by
  split
  · exact lookupTbl_addTS_pres tbl ik k x e0 hk
  · exact hk

theorem processBidir_tsTbl_cases (cfg : Config) (s : PState) (pkt : Packet)
    (tsval tsecr : Nat) (fr : flowRec) (k : String) (e1 : tsInfo)
    (h : lookupTbl (processBidir cfg s pkt tsval tsecr fr).1.tsTbl k = some e1) :
    (∃ e0, lookupTbl s.tsTbl k = some e0 ∧ (e1 = e0 ∨ e1 = wrNegT e0)) ∨
    (lookupTbl s.tsTbl k = none ∧ (e1.t = s.capTm ∨ e1.t = -s.capTm)) := by
  revert h
  simp only [processBidir]
  split
  · rename_i ti hti
    unfold getTS at hti
    split
    · dsimp only
      intro h
      by_cases hk : k = revKey pkt ++ "+" ++ toString tsecr
      · subst hk
        rw [lookupTbl_modifyTbl_self, hti] at h
        simp only [Option.map_some'] at h
        injection h with h
        subst h
        rcases lookupTbl_ite_addTS _ _ _ _ _ _ hti with hc | ⟨hc, rfl⟩
        · exact Or.inl ⟨ti, hc, Or.inr rfl⟩
        · exact Or.inr ⟨hc, Or.inr rfl⟩
      · rw [lookupTbl_modifyTbl_ne _ _ _ _ hk] at h
        rcases lookupTbl_ite_addTS _ _ _ _ _ _ h with hc | ⟨hc, rfl⟩
        · exact Or.inl ⟨e1, hc, Or.inl rfl⟩
        · exact Or.inr ⟨hc, Or.inl rfl⟩
    · dsimp only
      intro h
      rcases lookupTbl_ite_addTS _ _ _ _ _ _ h with hc | ⟨hc, rfl⟩
      · exact Or.inl ⟨e1, hc, Or.inl rfl⟩
      · exact Or.inr ⟨hc, Or.inl rfl⟩
  · dsimp only
    intro h
    rcases lookupTbl_ite_addTS _ _ _ _ _ _ h with hc | ⟨hc, rfl⟩
    · exact Or.inl ⟨e1, hc, Or.inl rfl⟩
    · exact Or.inr ⟨hc, Or.inl rfl⟩

theorem processBidir_consumed (cfg : Config) (s : PState) (pkt : Packet)
    (tsval tsecr : Nat) (fr : flowRec) (k : String) (e0 : tsInfo)
    (hk : lookupTbl s.tsTbl k = some e0) (ht : e0.t ≤ 0) :
    lookupTbl (processBidir cfg s pkt tsval tsecr fr).1.tsTbl k = some e0 ∧
    ∀ smp, (processBidir cfg s pkt tsval tsecr fr).2 = some smp → smp.tsKey ≠ k := by
  have hk1 : lookupTbl
      (if ¬cfg.filtLocal = true ∨ cfg.localIP ≠ pkt.dstIP then
        addTS s.tsTbl (fwdKey pkt ++ "+" ++ toString tsval)
          { t := s.capTm, fBytes := fr.bytesSnt + (pkt.length : Int), dBytes := fr.bytesDep }
      else s.tsTbl) k = some e0 :=
    lookupTbl_ite_addTS_pres _ _ _ _ _ _ hk
  simp only [processBidir]
  split
  · rename_i ti hti
    unfold getTS at hti
    split
    · rename_i hpos
      dsimp only
      by_cases htk : revKey pkt ++ "+" ++ toString tsecr = k
      · exfalso
        rw [htk, hk1] at hti
        injection hti with hti
        subst hti
        omega
      · constructor
        · rw [lookupTbl_modifyTbl_ne _ _ _ _ (fun hh => htk hh.symm)]
          exact hk1
        · intro smp hsmp
          injection hsmp with hsmp
          subst hsmp
          exact htk
    · exact ⟨hk1, by intro smp hsmp; simp at hsmp⟩
  · exact ⟨hk1, by intro smp hsmp; simp at hsmp⟩

theorem processBidir_filtLocal (cfg : Config) (s : PState) (pkt : Packet)
    (tsval tsecr : Nat) (fr : flowRec)
    (hf : cfg.filtLocal = true) (hl : cfg.localIP = pkt.dstIP) :
    (∀ k, k ≠ revKey pkt ++ "+" ++ toString tsecr →
       lookupTbl (processBidir cfg s pkt tsval tsecr fr).1.tsTbl k =
         lookupTbl s.tsTbl k) ∧
    ((processBidir cfg s pkt tsval tsecr fr).2.isSome = true ↔
      ∃ ti, lookupTbl s.tsTbl (revKey pkt ++ "+" ++ toString tsecr) = some ti ∧
        0 < ti.t) := by
  have hcond : ¬ (¬ cfg.filtLocal = true ∨ cfg.localIP ≠ pkt.dstIP) := by
    simp [hf, hl]
  simp only [processBidir, if_neg hcond]
  split
  · rename_i ti hti
    unfold getTS at hti
    split
    · rename_i hpos
      dsimp only
      refine ⟨?_, ?_⟩
      · intro k hkne
        exact lookupTbl_modifyTbl_ne _ _ _ _ hkne
      · simp only [Option.isSome_some, true_iff]
        exact ⟨ti, hti, hpos⟩
    · rename_i hpos
      dsimp only
      refine ⟨fun k _ => rfl, ?_⟩
      simp only [Option.isSome_none, Bool.false_eq_true, false_iff]
      rintro ⟨ti', h', hp⟩
      rw [hti] at h'
      injection h' with h'
      subst h'
      exact hpos hp
  · rename_i hti
    unfold getTS at hti
    dsimp only
    refine ⟨fun k _ => rfl, ?_⟩
    simp only [Option.isSome_none, Bool.false_eq_true, false_iff]
    rintro ⟨ti', h', hp⟩
    rw [hti] at h'
    cases h'

/-! ## C5: uni-directional gate and reverse retro-set -/

/-- C5: while a directed flow's reverse sibling has not been observed,
its packets emit no RTT sample: `uni_dir` is incremented and the packet
is discarded before byte accounting (`bytesSnt` untouched), before TS
insertion and before echo matching (TS table untouched), and `pktCnt`
is not incremented.  This holds both for an existing one-sided record
and for a freshly created flow whose reverse key is absent.  When a new
flow is created while its reverse key already exists, `revFlow` is set
on both the new record and the existing reverse record. -/
theorem C5_unidir_gate_and_retroset (cfg : Config) (s : PState) (pkt : Packet)
    (htcp : pkt.isTCP = true) (hel : ¬ noTSCond pkt) (hip : pkt.netv4or6 = true) :
    (∀ fr, lookupTbl s.flows (fwdKey pkt) = some fr → fr.revFlow = false →
      (processPacket cfg s pkt).2 = none ∧
      (processPacket cfg s pkt).1.tsTbl = s.tsTbl ∧
      (processPacket cfg s pkt).1.uniDir = s.uniDir + 1 ∧
      (processPacket cfg s pkt).1.pktCnt = s.pktCnt ∧
      (lookupTbl (processPacket cfg s pkt).1.flows (fwdKey pkt)).map flowRec.bytesSnt =
        some fr.bytesSnt) ∧
    (lookupTbl s.flows (fwdKey pkt) = none → s.flowCnt < cfg.maxFlows →
      lookupTbl s.flows (revKey pkt) = none → revKey pkt ≠ fwdKey pkt →
      (processPacket cfg s pkt).2 = none ∧
      (processPacket cfg s pkt).1.tsTbl = s.tsTbl ∧
      (processPacket cfg s pkt).1.uniDir = s.uniDir + 1 ∧
      (processPacket cfg s pkt).1.pktCnt = s.pktCnt ∧
      (lookupTbl (processPacket cfg s pkt).1.flows (fwdKey pkt)).map flowRec.bytesSnt =
        some 0 ∧
      (lookupTbl (processPacket cfg s pkt).1.flows (fwdKey pkt)).map flowRec.revFlow =
        some false) ∧
    (lookupTbl s.flows (fwdKey pkt) = none → s.flowCnt < cfg.maxFlows →
      ∀ rr, lookupTbl s.flows (revKey pkt) = some rr →
      ∃ fr1 rr1, lookupTbl (processPacket cfg s pkt).1.flows (fwdKey pkt) = some fr1 ∧
        fr1.revFlow = true ∧
        lookupTbl (processPacket cfg s pkt).1.flows (revKey pkt) = some rr1 ∧
        rr1.revFlow = true) := by
  rw [processPacket_eligible cfg s pkt htcp hel hip]
  have hcf := clockUpdate_fields s pkt
  refine ⟨?_, ?_, ?_⟩
  · intro fr hfr hrev
    simp only [processFlow, hcf.1, hfr]
    rw [if_neg (by simp [hrev])]
    refine ⟨rfl, hcf.2.1, by rw [hcf.2.2.2.2.2.2.1], hcf.2.2.1, ?_⟩
    dsimp only
    rw [lookupTbl_modifyTbl_map _ _ _ _ _ (fun r => rfl : ∀ r,
      (wrLastTm (clockUpdate s pkt).capTm r).bytesSnt = r.bytesSnt), hfr]
    rfl
  · intro hfr hcap hrevn hne
    simp only [processFlow, hcf.1, hfr]
    rw [if_neg (by rw [hcf.2.2.2.2.2.2.2]; exact not_le.mpr hcap)]
    rw [if_neg (by
      rw [lookupTbl_cons, if_neg (fun hh => hne hh.symm), hrevn]
      simp)]
    refine ⟨rfl, hcf.2.1, by rw [hcf.2.2.2.2.2.2.1], hcf.2.2.1, ?_, ?_⟩
    · dsimp only
      rw [lookupTbl_modifyTbl_map _ _ _ _ _ (fun r => rfl : ∀ r,
        (wrLastTm (clockUpdate s pkt).capTm r).bytesSnt = r.bytesSnt)]
      rw [lookupTbl_cons, if_pos rfl]
      rfl
    · dsimp only
      rw [lookupTbl_modifyTbl_map _ _ _ _ _ (wrLastTm_rev _)]
      rw [lookupTbl_cons, if_pos rfl]
      rfl
  · intro hfr hcap rr hrr
    have hne : revKey pkt ≠ fwdKey pkt := by
      intro hh
      rw [hh, hfr] at hrr
      cases hrr
    simp only [processFlow, hcf.1, hfr]
    rw [if_neg (by rw [hcf.2.2.2.2.2.2.2]; exact not_le.mpr hcap)]
    rw [if_pos (by
      rw [lookupTbl_cons, if_neg (fun hh => hne hh.symm), hrr]
      rfl)]
    have hrevmap := processBidir_flows_revFlow cfg
      { clockUpdate s pkt with
        flows := modifyTbl
          (modifyTbl (modifyTbl ((fwdKey pkt,
            { flowname := fwdKey pkt, last_tm := 0, min := minSentinel, bytesSnt := 0,
              lstBytesSnt := 0, bytesDep := 0, revFlow := false }) :: (clockUpdate s pkt).flows)
            (revKey pkt) wrRev) (fwdKey pkt) wrRev) (fwdKey pkt)
          (wrLastTm (clockUpdate s pkt).capTm),
        flowCnt := (clockUpdate s pkt).flowCnt + 1 }
      pkt (getTSFromTCPOpts pkt.opts).1 (getTSFromTCPOpts pkt.opts).2
      { flowname := fwdKey pkt, last_tm := (clockUpdate s pkt).capTm, min := minSentinel,
        bytesSnt := 0, lstBytesSnt := 0, bytesDep := 0, revFlow := true }
    have hfwd := hrevmap (fwdKey pkt)
    have hrev2 := hrevmap (revKey pkt)
    rw [hcf.1] at hfwd hrev2
    dsimp only at hfwd hrev2
    rw [lookupTbl_modifyTbl_map _ _ _ _ _ (wrLastTm_rev _),
        lookupTbl_modifyTbl_self,
        lookupTbl_modifyTbl_ne _ _ _ _ (fun hh => hne hh.symm),
        lookupTbl_cons, if_pos rfl] at hfwd
    rw [lookupTbl_modifyTbl_ne _ _ _ _ hne,
        lookupTbl_modifyTbl_ne _ _ _ _ hne,
        lookupTbl_modifyTbl_self, lookupTbl_cons,
        if_neg (fun hh => hne hh.symm), hrr] at hrev2
    simp only [Option.map_some'] at hfwd hrev2
    obtain ⟨fr1, hh1, hh2⟩ := Option.map_eq_some'.mp hfwd
    obtain ⟨rr1, hh3, hh4⟩ := Option.map_eq_some'.mp hrev2
    exact ⟨fr1, rr1, hh1, by rw [hh2]; rfl, hh3, by rw [hh4]; rfl⟩

/-- A non-SYN packet `10.0.0.1:1000 → 10.0.0.2:2000` with `TSval = 7`,
`TSecr = 5`. -/
def pW : Packet := mkPkt "10.0.0.1" 1000 "10.0.0.2" 2000 7 5 false 1000 0

/-- A one-sided flow record for `pW`'s forward key. -/
def frU : flowRec :=
  { flowname := "10.0.0.1:1000+10.0.0.2:2000", last_tm := 0, min := minSentinel,
    bytesSnt := 0, lstBytesSnt := 0, bytesDep := 0, revFlow := false }

/-- State holding only `pW`'s forward record (one-sided). -/
def sExist : PState :=
  { initState with
    flows := [("10.0.0.1:1000+10.0.0.2:2000", frU)],
    flowCnt := 1 }

/-- State holding only `pW`'s reverse record. -/
def sRev : PState :=
  { initState with
    flows := [("10.0.0.2:2000+10.0.0.1:1000",
      { frU with flowname := "10.0.0.2:2000+10.0.0.1:1000" })],
    flowCnt := 1 }

theorem C5_unidir_gate_and_retroset_witness :
    (processPacket cfgOpen sExist pW).2 = none ∧
    (processPacket cfgOpen sExist pW).1.uniDir = sExist.uniDir + 1 ∧
    (processPacket cfgOpen initState pW).1.uniDir = initState.uniDir + 1 ∧
    (∃ fr1 rr1,
      lookupTbl (processPacket cfgOpen sRev pW).1.flows (fwdKey pW) = some fr1 ∧
      fr1.revFlow = true ∧
      lookupTbl (processPacket cfgOpen sRev pW).1.flows (revKey pW) = some rr1 ∧
      rr1.revFlow = true) := by
  have h := C5_unidir_gate_and_retroset cfgOpen sExist pW (by decide) (by decide) (by decide)
  have h2 := C5_unidir_gate_and_retroset cfgOpen initState pW (by decide) (by decide) (by decide)
  have h3 := C5_unidir_gate_and_retroset cfgOpen sRev pW (by decide) (by decide) (by decide)
  refine ⟨(h.1 frU (by decide) (by decide)).1, (h.1 frU (by decide) (by decide)).2.2.1,
    (h2.2.1 (by decide) (by decide) (by decide) (by decide)).2.2.1, ?_⟩
  exact h3.2.2 (by decide) (by decide)
    { frU with flowname := "10.0.0.2:2000+10.0.0.1:1000" } (by decide)

/-! ## C10: local-traffic filtering skips only the TS insertion -/

/-- C10: when local filtering is on and the packet's destination IP is
the configured local address, only the TS-insertion step is skipped:
byte accounting still updates the flow's `bytesSnt`, the TS table is
untouched at every key other than the echo key `(reverse_key, TSecr)`,
and the echo lookup still runs — a sample is emitted exactly when a
pending entry (deposited by the opposite direction) sits at that key. -/
theorem C10_filtLocal_skips_only_insert (cfg : Config) (s : PState) (pkt : Packet)
    (htcp : pkt.isTCP = true) (hel : ¬ noTSCond pkt) (hip : pkt.netv4or6 = true)
    (hf : cfg.filtLocal = true) (hl : cfg.localIP = pkt.dstIP)
    (fr : flowRec) (hfr : lookupTbl s.flows (fwdKey pkt) = some fr)
    (hrev : fr.revFlow = true) :
    (lookupTbl (processPacket cfg s pkt).1.flows (fwdKey pkt)).map flowRec.bytesSnt =
      some (fr.bytesSnt + (pkt.length : Int)) ∧
    (∀ k, k ≠ revKey pkt ++ "+" ++ toString (getTSFromTCPOpts pkt.opts).2 →
      lookupTbl (processPacket cfg s pkt).1.tsTbl k = lookupTbl s.tsTbl k) ∧
    ((processPacket cfg s pkt).2.isSome = true ↔
      ∃ ti, lookupTbl s.tsTbl
          (revKey pkt ++ "+" ++ toString (getTSFromTCPOpts pkt.opts).2) = some ti ∧
        0 < ti.t) := by
  have hcf := clockUpdate_fields s pkt
  have heq : processPacket cfg s pkt =
      processBidir cfg
        { clockUpdate s pkt with
          flows := modifyTbl s.flows (fwdKey pkt) (wrLastTm (clockUpdate s pkt).capTm) }
        pkt (getTSFromTCPOpts pkt.opts).1 (getTSFromTCPOpts pkt.opts).2
        { fr with last_tm := (clockUpdate s pkt).capTm } := by
    rw [processPacket_eligible cfg s pkt htcp hel hip]
    simp only [processFlow, hcf.1, hfr]
    rw [if_pos (by simp [hrev])]
  have hfr1 : lookupTbl
      (modifyTbl s.flows (fwdKey pkt) (wrLastTm (clockUpdate s pkt).capTm)) (fwdKey pkt) =
      some { fr with last_tm := (clockUpdate s pkt).capTm } := by
    rw [lookupTbl_modifyTbl_self, hfr]
    rfl
  have hb := processBidir_bytesSnt cfg
    { clockUpdate s pkt with
      flows := modifyTbl s.flows (fwdKey pkt) (wrLastTm (clockUpdate s pkt).capTm) }
    pkt (getTSFromTCPOpts pkt.opts).1 (getTSFromTCPOpts pkt.opts).2
    { fr with last_tm := (clockUpdate s pkt).capTm } hfr1
  have hfl := processBidir_filtLocal cfg
    { clockUpdate s pkt with
      flows := modifyTbl s.flows (fwdKey pkt) (wrLastTm (clockUpdate s pkt).capTm) }
    pkt (getTSFromTCPOpts pkt.opts).1 (getTSFromTCPOpts pkt.opts).2
    { fr with last_tm := (clockUpdate s pkt).capTm } hf hl
  rw [heq]
  refine ⟨hb, ?_, ?_⟩
  · intro k hk
    have := hfl.1 k hk
    rw [this]
    exact congrArg (fun tb => lookupTbl tb k) hcf.2.1
  · rw [hfl.2]
    constructor
    · rintro ⟨ti, hti, hp⟩
      rw [show ({ clockUpdate s pkt with
          flows := modifyTbl s.flows (fwdKey pkt)
            (wrLastTm (clockUpdate s pkt).capTm) } : PState).tsTbl = s.tsTbl
        from hcf.2.1] at hti
      exact ⟨ti, hti, hp⟩
    · rintro ⟨ti, hti, hp⟩
      refine ⟨ti, ?_, hp⟩
      rw [show ({ clockUpdate s pkt with
          flows := modifyTbl s.flows (fwdKey pkt)
            (wrLastTm (clockUpdate s pkt).capTm) } : PState).tsTbl = s.tsTbl
        from hcf.2.1]
      exact hti

/-- Filtering configuration treating `10.0.0.2` (destination of `pW`) as local. -/
def cfgLoc : Config :=
  { maxFlows := 10000, filtLocal := true, localIP := "10.0.0.2",
    tsvalMaxAge := 10000000000, flowMaxIdle := 300000000000 }

/-- `pW`'s forward record with the reverse direction already seen. -/
def frB : flowRec := { frU with revFlow := true }

/-- State with `pW`'s forward flow bidirectional and a pending echo entry
deposited by the reverse direction. -/
def sLoc : PState :=
  { initState with
    flows := [("10.0.0.1:1000+10.0.0.2:2000", frB)],
    tsTbl := [("10.0.0.2:2000+10.0.0.1:1000+5", ⟨1, 0, 0⟩)],
    flowCnt := 1 }

theorem C10_filtLocal_skips_only_insert_witness :
    (lookupTbl (processPacket cfgLoc sLoc pW).1.flows (fwdKey pW)).map flowRec.bytesSnt =
      some (frB.bytesSnt + (pW.length : Int)) ∧
    lookupTbl (processPacket cfgLoc sLoc pW).1.tsTbl "10.0.0.1:1000+10.0.0.2:2000+7" =
      lookupTbl sLoc.tsTbl "10.0.0.1:1000+10.0.0.2:2000+7" ∧
    (processPacket cfgLoc sLoc pW).2.isSome = true := by
  have h := C10_filtLocal_skips_only_insert cfgLoc sLoc pW (by decide) (by decide)
    (by decide) (by decide) (by decide) frB (by decide) (by decide)
  exact ⟨h.1, h.2.1 _ (by decide), h.2.2.mpr ⟨⟨1, 0, 0⟩, by decide, by decide⟩⟩

theorem lookupTbl_filter_keep {α : Type} (tbl : List (String × α)) (p : String × α → Bool)
    (k : String) (v : α) (hnd : (tbl.map Prod.fst).Nodup)
    (hmem : lookupTbl tbl k = some v) (hgood : p (k, v) = true) :
    lookupTbl (tbl.filter p) k = some v := by
  induction tbl with
  | nil => cases hmem
  | cons hd tl ih =>
    obtain ⟨k0, v0⟩ := hd
    simp only [List.map_cons, List.nodup_cons] at hnd
    by_cases hk : k0 = k
    · subst hk
      rw [lookupTbl_cons, if_pos rfl] at hmem
      cases hmem
      rw [List.filter_cons_of_pos hgood, lookupTbl_cons, if_pos rfl]
    · rw [lookupTbl_cons, if_neg hk] at hmem
      by_cases hp : p (k0, v0)
      · rw [List.filter_cons_of_pos hp, lookupTbl_cons, if_neg hk]
        exact ih hnd.2 hmem
      · rw [List.filter_cons_of_neg hp]
        exact ih hnd.2 hmem

/-! ## C8: cleanUp eviction -/

/-- C8: after a `cleanUp` pass invoked (as `main` does) at capture time
`T = capTm`, no TS entry older than `tsval_max_age` (measured on `|t|`)
remains and no flow idle longer than `flow_max_idle` remains; `flowCnt`
is decremented exactly once per evicted flow record and TS evictions do
not touch it; and whether a TS entry survives depends only on its age —
flow evictions do not cascade to TS entries keyed on an evicted flow. -/
theorem C8_cleanUp_eviction (cfg : Config) (s : PState) (n : Int)
    (hn : s.capTm = n)
    (hndTs : (s.tsTbl.map Prod.fst).Nodup) (hndFl : (s.flows.map Prod.fst).Nodup) :
    (∀ k e, lookupTbl (cleanUp cfg s n).tsTbl k = some e →
      ¬ cfg.tsvalMaxAge < n - |e.t|) ∧
    (∀ k fr, lookupTbl (cleanUp cfg s n).flows k = some fr →
      ¬ cfg.flowMaxIdle < n - fr.last_tm) ∧
    (cleanUp cfg s n).flowCnt =
      s.flowCnt - ((s.flows.length : Int) - ((cleanUp cfg s n).flows.length : Int)) ∧
    (∀ k e, lookupTbl s.tsTbl k = some e →
      (lookupTbl (cleanUp cfg s n).tsTbl k = some e ↔
        ¬ cfg.tsvalMaxAge < n - |e.t|)) := by
  subst hn
  refine ⟨?_, ?_, rfl, ?_⟩
  · intro k e he
    have := (lookupTbl_filter _ _ _ _ hndTs he).2
    simpa using this
  · intro k fr hf
    have := (lookupTbl_filter _ _ _ _ hndFl hf).2
    simpa using this
  · intro k e he
    constructor
    · intro hk
      have := (lookupTbl_filter _ _ _ _ hndTs hk).2
      simpa using this
    · intro hgood
      exact lookupTbl_filter_keep _ _ _ _ hndTs he (by simpa using hgood)

/-- A flow record for the key `"A+B"` last seen at 19 s. -/
def frA : flowRec :=
  { flowname := "A+B", last_tm := 19000000000, min := minSentinel, bytesSnt := 0,
    lstBytesSnt := 0, bytesDep := 0, revFlow := true }

/-- A state at `capTm = 20 s` with one stale TS entry (age 19 s), one
fresh TS entry (age 5 s) and one fresh flow. -/
def sCl : PState :=
  { initState with
    capTm := 20000000000,
    tsTbl := [("B+A+100", ⟨1000000000, 0, 0⟩), ("A+B+51", ⟨15000000000, 0, 0⟩)],
    flows := [("A+B", frA)],
    flowCnt := 1 }

theorem C8_cleanUp_eviction_witness :
    (cleanUp cfgOpen sCl 20000000000).flowCnt =
      sCl.flowCnt - ((sCl.flows.length : Int) -
        ((cleanUp cfgOpen sCl 20000000000).flows.length : Int)) ∧
    (lookupTbl (cleanUp cfgOpen sCl 20000000000).tsTbl "B+A+100" =
        some ⟨1000000000, 0, 0⟩ ↔
      ¬ cfgOpen.tsvalMaxAge < 20000000000 - |(⟨1000000000, 0, 0⟩ : tsInfo).t|) ∧
    ¬ cfgOpen.flowMaxIdle < 20000000000 - frA.last_tm := by
  have h := C8_cleanUp_eviction cfgOpen sCl 20000000000 (by decide) (by decide) (by decide)
  exact ⟨h.2.2.1, h.2.2.2 "B+A+100" ⟨1000000000, 0, 0⟩ (by decide),
    h.2.1 "A+B" frA (by decide)⟩

theorem processBidir_flows_length (cfg : Config) (s : PState) (pkt : Packet)
    (tsval tsecr : Nat) (fr : flowRec) :
    (processBidir cfg s pkt tsval tsecr fr).1.flows.length = s.flows.length := by
  simp only [processBidir]
  split
  · split
    · dsimp only
      rw [modifyTbl_length, modifyTbl_length, modifyTbl_length, modifyTbl_length]
    · dsimp only
      rw [modifyTbl_length]
  · dsimp only
    rw [modifyTbl_length]

theorem processFlow_len_cnt (cfg : Config) (s : PState) (pkt : Packet)
    (tsval tsecr : Nat) :
    ((processFlow cfg s pkt tsval tsecr).1.flowCnt = s.flowCnt ∧
      (processFlow cfg s pkt tsval tsecr).1.flows.length = s.flows.length) ∨
    ((processFlow cfg s pkt tsval tsecr).1.flowCnt = s.flowCnt + 1 ∧
      (processFlow cfg s pkt tsval tsecr).1.flows.length = s.flows.length + 1 ∧
      s.flowCnt < cfg.maxFlows) := by
  simp only [processFlow]
  split
  · split
    · left
      constructor
      · obtain ⟨fl, tb, out, hsh⟩ := processBidir_shape cfg _ pkt tsval tsecr _
        rw [hsh]
      · rw [processBidir_flows_length]
        dsimp only
        rw [modifyTbl_length]
    · exact Or.inl ⟨rfl, by dsimp only; rw [modifyTbl_length]⟩
  · split
    · exact Or.inl ⟨rfl, rfl⟩
    · rename_i hcap
      split
      · right
        refine ⟨?_, ?_, not_le.mp hcap⟩
        · obtain ⟨fl, tb, out, hsh⟩ := processBidir_shape cfg _ pkt tsval tsecr _
          rw [hsh]
        · rw [processBidir_flows_length]
          dsimp only
          rw [modifyTbl_length, modifyTbl_length, modifyTbl_length]
          rfl
      · exact Or.inr ⟨rfl, by dsimp only; rw [modifyTbl_length]; rfl, not_le.mp hcap⟩

/-! ## C6: flow-count invariant and capacity drop -/

/-- C6: starting from the initial state, after any event sequence
`flowCnt` equals the number of records in the flow table and never
exceeds `maxFlows` (for a non-negative configured maximum); and an
eligible packet for an unknown flow key arriving at capacity leaves
every table and counter unchanged (only the capture clock advances) and
emits nothing. -/
theorem C6_flowCnt_inv (cfg : Config) (hmax : 0 ≤ cfg.maxFlows) :
    (∀ evs : List Ev,
      (runEvents cfg initState evs).1.flowCnt =
        (((runEvents cfg initState evs).1.flows.length : Nat) : Int) ∧
      (runEvents cfg initState evs).1.flowCnt ≤ cfg.maxFlows) ∧
    (∀ s pkt, pkt.isTCP = true → ¬ noTSCond pkt → pkt.netv4or6 = true →
      lookupTbl s.flows (fwdKey pkt) = none → cfg.maxFlows ≤ s.flowCnt →
      processPacket cfg s pkt = (clockUpdate s pkt, none)) := by
  constructor
  · have hstep : ∀ s e, s.flowCnt = ((s.flows.length : Nat) : Int) →
        s.flowCnt ≤ cfg.maxFlows →
        (stepEv cfg s e).1.flowCnt = (((stepEv cfg s e).1.flows.length : Nat) : Int) ∧
        (stepEv cfg s e).1.flowCnt ≤ cfg.maxFlows := by
      intro s e h1 h2
      cases e with
      | clean =>
        simp only [stepEv]
        have hc : (cleanUp cfg s s.capTm).flowCnt =
            s.flowCnt - ((s.flows.length : Int) -
              ((cleanUp cfg s s.capTm).flows.length : Int)) := rfl
        have hl : (cleanUp cfg s s.capTm).flows.length ≤ s.flows.length := by
          unfold cleanUp
          dsimp only
          exact List.length_filter_le _ _
        omega
      | pkt p =>
        simp only [stepEv]
        cases htcp : p.isTCP with
        | false =>
          rw [processPacket_not_tcp cfg s p htcp]
          exact ⟨h1, h2⟩
        | true =>
          by_cases hel : noTSCond p
          · rw [processPacket_ineligible cfg s p htcp hel]
            exact ⟨h1, h2⟩
          · cases hip : p.netv4or6 with
            | false =>
              rw [processPacket_not_ip cfg s p htcp hel hip]
              exact ⟨h1, h2⟩
            | true =>
              rw [processPacket_eligible cfg s p htcp hel hip]
              have hcf := clockUpdate_fields s p
              rcases processFlow_len_cnt cfg (clockUpdate s p) p
                  (getTSFromTCPOpts p.opts).1 (getTSFromTCPOpts p.opts).2 with
                ⟨hc, hl⟩ | ⟨hc, hl, hlt⟩
              · rw [hc, hl, hcf.1, hcf.2.2.2.2.2.2.2]
                exact ⟨h1, h2⟩
              · rw [hc, hl, hcf.1, hcf.2.2.2.2.2.2.2]
                constructor
                · omega
                · omega
    have hrun : ∀ evs (s : PState), s.flowCnt = ((s.flows.length : Nat) : Int) →
        s.flowCnt ≤ cfg.maxFlows →
        (runEvents cfg s evs).1.flowCnt =
          (((runEvents cfg s evs).1.flows.length : Nat) : Int) ∧
        (runEvents cfg s evs).1.flowCnt ≤ cfg.maxFlows := by
      intro evs
      induction evs with
      | nil => intro s h1 h2; exact ⟨h1, h2⟩
      | cons e rest ih =>
        intro s h1 h2
        obtain ⟨h1', h2'⟩ := hstep s e h1 h2
        exact ih _ h1' h2'
    intro evs
    exact hrun evs initState (by decide) (by simpa using hmax)
  · intro s pkt htcp hel hip hfr hcap
    rw [processPacket_eligible cfg s pkt htcp hel hip]
    have hcf := clockUpdate_fields s pkt
    simp only [processFlow, hcf.1, hfr]
    rw [if_pos (by rw [hcf.2.2.2.2.2.2.2]; exact hcap)]

/-- A configuration with room for a single flow. -/
def cfgOne : Config :=
  { maxFlows := 1, filtLocal := false, localIP := "",
    tsvalMaxAge := 10000000000, flowMaxIdle := 300000000000 }

/-- A packet for the reverse direction of `pW` (unknown key in `sExist`). -/
def pX : Packet := mkPkt "10.0.0.2" 2000 "10.0.0.1" 1000 9 5 false 1000 0

theorem C6_flowCnt_inv_witness :
    ((runEvents cfgOpen initState [Ev.pkt pW]).1.flowCnt =
      (((runEvents cfgOpen initState [Ev.pkt pW]).1.flows.length : Nat) : Int) ∧
     (runEvents cfgOpen initState [Ev.pkt pW]).1.flowCnt ≤ cfgOpen.maxFlows) ∧
    processPacket cfgOne sExist pX = (clockUpdate sExist pX, none) := by
  refine ⟨(C6_flowCnt_inv cfgOpen (by decide)).1 [Ev.pkt pW], ?_⟩
  exact (C6_flowCnt_inv cfgOne (by decide)).2 sExist pX (by decide) (by decide)
    (by decide) (by decide) (by decide)

/-- Every call of `processPacket` either drops the packet without output
and without touching the TS table, or reaches the bi-directional tail
`processBidir` on the clock-updated state with the current flow record. -/
theorem processPacket_via_bidir (cfg : Config) (s : PState) (pkt : Packet) :
    ((processPacket cfg s pkt).2 = none ∧ (processPacket cfg s pkt).1.tsTbl = s.tsTbl) ∨
    (∃ s1 fr, processPacket cfg s pkt =
        processBidir cfg s1 pkt (getTSFromTCPOpts pkt.opts).1 (getTSFromTCPOpts pkt.opts).2 fr ∧
      s1.tsTbl = s.tsTbl ∧ s1.capTm = (clockUpdate s pkt).capTm ∧
      s1.offTm = (clockUpdate s pkt).offTm ∧
      lookupTbl s1.flows (fwdKey pkt) = some fr) := by
  cases htcp : pkt.isTCP with
  | false => rw [processPacket_not_tcp cfg s pkt htcp]; exact Or.inl ⟨rfl, rfl⟩
  | true =>
    by_cases hel : noTSCond pkt
    · rw [processPacket_ineligible cfg s pkt htcp hel]; exact Or.inl ⟨rfl, rfl⟩
    · cases hip : pkt.netv4or6 with
      | false => rw [processPacket_not_ip cfg s pkt htcp hel hip]; exact Or.inl ⟨rfl, rfl⟩
      | true =>
        rw [processPacket_eligible cfg s pkt htcp hel hip]
        have hcf := clockUpdate_fields s pkt
        simp only [processFlow]
        split
        · rename_i fr hfr
          split
          · right
            refine ⟨_, _, rfl, hcf.2.1, rfl, rfl, ?_⟩
            dsimp only
            rw [lookupTbl_modifyTbl_self, hfr]
            rfl
          · exact Or.inl ⟨rfl, hcf.2.1⟩
        · rename_i hfr
          split
          · exact Or.inl ⟨rfl, hcf.2.1⟩
          · split
            · rename_i hrev
              right
              refine ⟨_, _, rfl, hcf.2.1, rfl, rfl, ?_⟩
              dsimp only
              by_cases hself : revKey pkt = fwdKey pkt
              · rw [lookupTbl_modifyTbl_self, lookupTbl_modifyTbl_self, hself,
                  lookupTbl_modifyTbl_self, lookupTbl_cons, if_pos rfl]
                rfl
              · rw [lookupTbl_modifyTbl_self, lookupTbl_modifyTbl_self,
                  lookupTbl_modifyTbl_ne _ _ _ _ (fun hh => hself hh.symm),
                  lookupTbl_cons, if_pos rfl]
                rfl
            · exact Or.inl ⟨rfl, hcf.2.1⟩

theorem processPacket_emit_consumed (cfg : Config) (s : PState) (pkt : Packet)
    (smp : Sample) (h : (processPacket cfg s pkt).2 = some smp) :
    ∃ e1, lookupTbl (processPacket cfg s pkt).1.tsTbl smp.tsKey = some e1 ∧ e1.t < 0 := by
  rcases processPacket_via_bidir cfg s pkt with ⟨hn, _⟩ | ⟨s1, fr, heq, hts, hcap, hoff, hlf⟩
  · rw [hn] at h; cases h
  · rw [heq] at h ⊢
    exact (processBidir_emit cfg s1 pkt _ _ fr smp h).2.2.2.2.2

theorem processPacket_consumed_pres (cfg : Config) (s : PState) (pkt : Packet)
    (k : String) (e0 : tsInfo) (hk : lookupTbl s.tsTbl k = some e0) (ht : e0.t ≤ 0) :
    lookupTbl (processPacket cfg s pkt).1.tsTbl k = some e0 ∧
    ∀ smp, (processPacket cfg s pkt).2 = some smp → smp.tsKey ≠ k := by
  rcases processPacket_via_bidir cfg s pkt with ⟨hn, hts⟩ | ⟨s1, fr, heq, hts, hcap, hoff, hlf⟩
  · refine ⟨hts ▸ hk, ?_⟩
    intro smp hsmp
    rw [hn] at hsmp
    cases hsmp
  · rw [heq]
    exact processBidir_consumed cfg s1 pkt _ _ fr k e0 (hts ▸ hk) ht

/-- In a stretch of the run with no `cleanUp` pass and a consumed entry
sitting at key `k`, no sample for `k` is ever emitted. -/
theorem run_consumed_no_sample (cfg : Config) (k : String) :
    ∀ (evs : List Ev) (s : PState), Ev.clean ∉ evs →
      (∃ e0, lookupTbl s.tsTbl k = some e0 ∧ e0.t ≤ 0) →
      ((runEvents cfg s evs).2.countP (fun smp => smp.tsKey = k)) = 0 := by
  intro evs
  induction evs with
  | nil => intro s _ _; rfl
  | cons e rest ih =>
    intro s hcl ⟨e0, hk, ht⟩
    have hcl' : Ev.clean ∉ rest := fun hc => hcl (List.mem_cons_of_mem _ hc)
    have hne : e ≠ Ev.clean := fun hc => hcl (hc ▸ List.mem_cons_self _ _)
    cases e with
    | clean => exact absurd rfl hne
    | pkt p =>
      simp only [runEvents, stepEv, List.countP_append]
      obtain ⟨hk', hnos⟩ := processPacket_consumed_pres cfg s p k e0 hk ht
      have h2 := ih (processPacket cfg s p).1 hcl' ⟨e0, hk', ht⟩
      cases hout : (processPacket cfg s p).2 with
      | none => simpa [hout] using h2
      | some smp =>
        have := hnos smp hout
        simp only [hout, Option.toList_some, List.countP_cons, List.countP_nil]
        simp [this, h2]

/-- In a stretch of the run with no `cleanUp` pass, at most one sample is
emitted for any given TS key. -/
theorem run_count_le_one (cfg : Config) (k : String) :
    ∀ (evs : List Ev) (s : PState), Ev.clean ∉ evs →
      ((runEvents cfg s evs).2.countP (fun smp => smp.tsKey = k)) ≤ 1 := by
  intro evs
  induction evs with
  | nil => intro s _; simp [runEvents]
  | cons e rest ih =>
    intro s hcl
    have hcl' : Ev.clean ∉ rest := fun hc => hcl (List.mem_cons_of_mem _ hc)
    have hne : e ≠ Ev.clean := fun hc => hcl (hc ▸ List.mem_cons_self _ _)
    cases e with
    | clean => exact absurd rfl hne
    | pkt p =>
      simp only [runEvents, stepEv, List.countP_append]
      cases hout : (processPacket cfg s p).2 with
      | none =>
        simpa [hout] using ih (processPacket cfg s p).1 hcl'
      | some smp =>
        by_cases hkk : smp.tsKey = k
        · obtain ⟨e1, he1, hneg⟩ := processPacket_emit_consumed cfg s p smp hout
          have hz := run_consumed_no_sample cfg k rest (processPacket cfg s p).1 hcl'
            ⟨e1, hkk ▸ he1, le_of_lt hneg⟩
          simp only [hout, Option.toList_some, List.countP_cons, List.countP_nil]
          simp [hkk, hz]
        · simp only [hout, Option.toList_some, List.countP_cons, List.countP_nil]
          have := ih (processPacket cfg s p).1 hcl'
          simp [hkk]
          omega

/-! ## C2: consumption — corrected -/

/-- Configuration with `tsvalMaxAge = 1 s` for the C2 counterexample run. -/
def cfgC2 : Config :=
  { maxFlows := 10000, filtLocal := false, localIP := "",
    tsvalMaxAge := 1000000000, flowMaxIdle := 300000000000 }

/-- A run in which the `(B→A, TSval = 100)` entry is consumed, evicted
by `cleanUp`, re-deposited by a later packet reusing `TSval = 100`, and
consumed a second time. -/
def evsC2 : List Ev :=
  [ .pkt (mkPkt "10.0.0.1" 1000 "10.0.0.2" 2000 50 0 true 1000 0),
    .pkt (mkPkt "10.0.0.2" 2000 "10.0.0.1" 1000 100 50 false 1000 100000000),
    .pkt (mkPkt "10.0.0.1" 1000 "10.0.0.2" 2000 51 100 false 1000 200000000),
    .pkt (mkPkt "10.0.0.1" 1000 "10.0.0.2" 2000 52 100 false 1002 0),
    .clean,
    .pkt (mkPkt "10.0.0.2" 2000 "10.0.0.1" 1000 100 52 false 1002 500000000),
    .pkt (mkPkt "10.0.0.1" 1000 "10.0.0.2" 2000 53 100 false 1003 0) ]

/-- C2 as stated is false: across a run that includes a `cleanUp` pass,
the `(flow_key, TSval)` pair `("10.0.0.2:2000+10.0.0.1:1000", 100)`
yields two RTT samples — the consumed entry is evicted by age, a later
packet reuses the same `TSval`, and the fresh entry is matched again. -/
theorem C2_counterexample :
    ¬ ((runEvents cfgC2 initState evsC2).2.countP
        (fun smp => smp.tsKey = "10.0.0.2:2000+10.0.0.1:1000+100") ≤ 1) := by decide

/-- C2 (amended): every `(flow_key, TSval)` pair yields at most one RTT
sample during the lifetime of its TS-table entry — in any stretch of the
run without a `cleanUp` pass, at most one sample carries a given TS key;
the first successful match negates the stored time in place, and while
the consumed entry remains in the table every later lookup finds
`t ≤ 0`, keeps the entry untouched and emits no sample for that key.
(A second sample for the same pair can occur only after `cleanUp`
evicts the consumed entry and the `TSval` is deposited afresh.) -/
theorem C2_consumption_per_entry_lifetime (cfg : Config) (s : PState) (k : String) :
    (∀ evs : List Ev, Ev.clean ∉ evs →
      ((runEvents cfg s evs).2.countP (fun smp => smp.tsKey = k)) ≤ 1) ∧
    (∀ pkt smp, (processPacket cfg s pkt).2 = some smp →
      ∃ e1, lookupTbl (processPacket cfg s pkt).1.tsTbl smp.tsKey = some e1 ∧
        e1.t < 0) ∧
    (∀ pkt e0, lookupTbl s.tsTbl k = some e0 → e0.t ≤ 0 →
      lookupTbl (processPacket cfg s pkt).1.tsTbl k = some e0 ∧
      ∀ smp, (processPacket cfg s pkt).2 = some smp → smp.tsKey ≠ k) :=
  ⟨fun evs hcl => run_count_le_one cfg k evs s hcl,
   fun pkt smp h => processPacket_emit_consumed cfg s pkt smp h,
   fun pkt e0 hk ht => processPacket_consumed_pres cfg s pkt k e0 hk ht⟩

theorem C2_consumption_per_entry_lifetime_witness :
    ((runEvents cfgOpen sLoc [Ev.pkt pW]).2.countP
      (fun smp => smp.tsKey = "10.0.0.2:2000+10.0.0.1:1000+5")) ≤ 1 ∧
    (∃ e1, lookupTbl (processPacket cfgOpen sLoc pW).1.tsTbl
        "10.0.0.2:2000+10.0.0.1:1000+5" = some e1 ∧ e1.t < 0) ∧
    lookupTbl (processPacket cfgOpen
        { initState with tsTbl := [("K", ⟨-3, 0, 0⟩)] } pW).1.tsTbl "K" =
      some ⟨-3, 0, 0⟩ := by
  have h := C2_consumption_per_entry_lifetime cfgOpen sLoc
    "10.0.0.2:2000+10.0.0.1:1000+5"
  have h3 := C2_consumption_per_entry_lifetime cfgOpen
    { initState with tsTbl := [("K", ⟨-3, 0, 0⟩)] } "K"
  refine ⟨h.1 [Ev.pkt pW] (by decide), ?_, (h3.2.2 pW ⟨-3, 0, 0⟩ (by decide) (by decide)).1⟩
  have h2 := h.2.1 pW
    { rtt := -1, minRtt := -1, fBytes := 0, dBytes := 0, pBytes := 100,
      flowname := "10.0.0.1:1000+10.0.0.2:2000", capTm := 0,
      tsKey := "10.0.0.2:2000+10.0.0.1:1000+5" } (by decide)
  exact h2

theorem lookupTbl_isSome_of_mem {α : Type} (tbl : List (String × α)) (k : String)
    (h : k ∈ tbl.map Prod.fst) : (lookupTbl tbl k).isSome = true := by
  induction tbl with
  | nil => simp at h
  | cons hd tl ih =>
    obtain ⟨k0, v0⟩ := hd
    by_cases hk : k0 = k
    · rw [lookupTbl_cons, if_pos hk]
      rfl
    · rw [lookupTbl_cons, if_neg hk]
      simp only [List.map_cons, List.mem_cons] at h
      rcases h with h | h
      · exact absurd h.symm hk
      · exact ih h

theorem modifyTbl_keys {α : Type} (tbl : List (String × α)) (k : String) (f : α → α) :
    (modifyTbl tbl k f).map Prod.fst = tbl.map Prod.fst := by
  induction tbl with
  | nil => rfl
  | cons hd tl ih =>
    obtain ⟨k0, v⟩ := hd
    by_cases h : k0 = k <;> simp [modifyTbl, h, ih]

theorem processBidir_flows_keys (cfg : Config) (s : PState) (pkt : Packet)
    (tsval tsecr : Nat) (fr : flowRec) :
    (processBidir cfg s pkt tsval tsecr fr).1.flows.map Prod.fst =
      s.flows.map Prod.fst := by
  simp only [processBidir]
  split
  · split
    · dsimp only
      rw [modifyTbl_keys, modifyTbl_keys, modifyTbl_keys, modifyTbl_keys]
    · dsimp only
      rw [modifyTbl_keys]
  · dsimp only
    rw [modifyTbl_keys]

theorem processFlow_keys (cfg : Config) (s : PState) (pkt : Packet) (tsval tsecr : Nat) :
    (processFlow cfg s pkt tsval tsecr).1.flows.map Prod.fst = s.flows.map Prod.fst ∨
    ((processFlow cfg s pkt tsval tsecr).1.flows.map Prod.fst =
        fwdKey pkt :: s.flows.map Prod.fst ∧
      lookupTbl s.flows (fwdKey pkt) = none) := by
  simp only [processFlow]
  split
  · split
    · left
      rw [processBidir_flows_keys]
      dsimp only
      rw [modifyTbl_keys]
    · left
      dsimp only
      rw [modifyTbl_keys]
  · rename_i hfr
    split
    · exact Or.inl rfl
    · split
      · right
        refine ⟨?_, hfr⟩
        rw [processBidir_flows_keys]
        dsimp only
        rw [modifyTbl_keys, modifyTbl_keys, modifyTbl_keys]
        rfl
      · right
        refine ⟨?_, hfr⟩
        dsimp only
        rw [modifyTbl_keys]
        rfl

theorem stepEv_nodup (cfg : Config) (s : PState) (e : Ev)
    (hnd : (s.flows.map Prod.fst).Nodup) :
    ((stepEv cfg s e).1.flows.map Prod.fst).Nodup := by
  cases e with
  | clean =>
    simp only [stepEv]
    unfold cleanUp
    dsimp only
    exact hnd.sublist ((List.filter_sublist s.flows).map Prod.fst)
  | pkt p =>
    simp only [stepEv]
    cases htcp : p.isTCP with
    | false => rw [processPacket_not_tcp cfg s p htcp]; exact hnd
    | true =>
      by_cases hel : noTSCond p
      · rw [processPacket_ineligible cfg s p htcp hel]; exact hnd
      · cases hip : p.netv4or6 with
        | false => rw [processPacket_not_ip cfg s p htcp hel hip]; exact hnd
        | true =>
          rw [processPacket_eligible cfg s p htcp hel hip]
          have hcf := clockUpdate_fields s p
          rcases processFlow_keys cfg (clockUpdate s p) p
              (getTSFromTCPOpts p.opts).1 (getTSFromTCPOpts p.opts).2 with
            hk | ⟨hk, hnone⟩
          · rw [hk, hcf.1]; exact hnd
          · rw [hk, hcf.1]
            rw [hcf.1] at hnone
            refine List.nodup_cons.mpr ⟨fun hc => ?_, hnd⟩
            have := lookupTbl_isSome_of_mem s.flows (fwdKey p) hc
            rw [hnone] at this
            cases this

theorem processPacket_minLe (cfg : Config) (s : PState) (pkt : Packet) (k : String)
    (fr fr' : flowRec) (hfr : lookupTbl s.flows k = some fr)
    (h' : lookupTbl (processPacket cfg s pkt).1.flows k = some fr') :
    fr'.min ≤ fr.min := by
  revert h'
  cases htcp : pkt.isTCP with
  | false =>
    rw [processPacket_not_tcp cfg s pkt htcp]
    intro h'
    rw [hfr] at h'
    cases h'
    exact le_refl _
  | true =>
    by_cases hel : noTSCond pkt
    · rw [processPacket_ineligible cfg s pkt htcp hel]
      intro h'
      rw [hfr] at h'
      cases h'
      exact le_refl _
    · cases hip : pkt.netv4or6 with
      | false =>
        rw [processPacket_not_ip cfg s pkt htcp hel hip]
        intro h'
        rw [hfr] at h'
        cases h'
        exact le_refl _
      | true =>
        rw [processPacket_eligible cfg s pkt htcp hel hip]
        have hcf := clockUpdate_fields s pkt
        simp only [processFlow, hcf.1]
        split
        · rename_i fr0 hfr0
          split
          · intro h'
            obtain ⟨v1, hv1, le1⟩ := processBidir_flows_minLe cfg _ pkt _ _ _ k fr' h'
            dsimp only at hv1
            obtain ⟨v0, hv0, le0⟩ :=
              lookupTbl_modifyTbl_minLe _ _ _ _ (wrLastTm_min _) _ hv1
            rw [hfr] at hv0
            cases hv0
            exact le_trans le1 le0
          · intro h'
            dsimp only at h'
            obtain ⟨v0, hv0, le0⟩ :=
              lookupTbl_modifyTbl_minLe _ _ _ _ (wrLastTm_min _) _ h'
            rw [hfr] at hv0
            cases hv0
            exact le0
        · rename_i hfr0
          have hkne : fwdKey pkt ≠ k := by
            intro hh
            rw [hh, hfr] at hfr0
            cases hfr0
          split
          · intro h'
            dsimp only at h'
            rw [hcf.1, hfr] at h'
            cases h'
            exact le_refl _
          · split
            · intro h'
              obtain ⟨v1, hv1, le1⟩ := processBidir_flows_minLe cfg _ pkt _ _ _ k fr' h'
              dsimp only at hv1
              obtain ⟨v2, hv2, le2⟩ :=
                lookupTbl_modifyTbl_minLe _ _ _ _ (wrLastTm_min _) _ hv1
              obtain ⟨v3, hv3, le3⟩ :=
                lookupTbl_modifyTbl_minLe _ _ _ _ wrRev_min _ hv2
              obtain ⟨v4, hv4, le4⟩ :=
                lookupTbl_modifyTbl_minLe _ _ _ _ wrRev_min _ hv3
              rw [lookupTbl_cons, if_neg hkne, hfr] at hv4
              cases hv4
              exact le_trans le1 (le_trans le2 (le_trans le3 le4))
            · intro h'
              dsimp only at h'
              obtain ⟨v2, hv2, le2⟩ :=
                lookupTbl_modifyTbl_minLe _ _ _ _ (wrLastTm_min _) _ h'
              rw [lookupTbl_cons, if_neg hkne, hfr] at hv2
              cases hv2
              exact le2

theorem stepEv_minLe (cfg : Config) (s : PState) (e : Ev) (k : String)
    (fr fr' : flowRec) (hnd : (s.flows.map Prod.fst).Nodup)
    (hfr : lookupTbl s.flows k = some fr)
    (h' : lookupTbl (stepEv cfg s e).1.flows k = some fr') :
    fr'.min ≤ fr.min := by
  cases e with
  | clean =>
    simp only [stepEv] at h'
    unfold cleanUp at h'
    dsimp only at h'
    have := (lookupTbl_filter _ _ _ _ hnd h').1
    rw [hfr] at this
    cases this
    exact le_refl _
  | pkt p => exact processPacket_minLe cfg s p k fr fr' hfr h'

theorem processBidir_noemit_min (cfg : Config) (s : PState) (pkt : Packet)
    (tsval tsecr : Nat) (fr : flowRec) (k : String)
    (h : (processBidir cfg s pkt tsval tsecr fr).2 = none) :
    (lookupTbl (processBidir cfg s pkt tsval tsecr fr).1.flows k).map flowRec.min =
      (lookupTbl s.flows k).map flowRec.min := by
  revert h
  simp only [processBidir]
  split
  · split
    · intro h
      simp at h
    · intro _
      dsimp only
      rw [lookupTbl_modifyTbl_map _ _ _ _ _ (fun r => rfl : ∀ r,
        (wrBytesSnt (fr.bytesSnt + (pkt.length : Int)) r).min = r.min)]
  · intro _
    dsimp only
    rw [lookupTbl_modifyTbl_map _ _ _ _ _ (fun r => rfl : ∀ r,
      (wrBytesSnt (fr.bytesSnt + (pkt.length : Int)) r).min = r.min)]

theorem processPacket_emit_min (cfg : Config) (s : PState) (pkt : Packet)
    (smp : Sample) (h : (processPacket cfg s pkt).2 = some smp) :
    (lookupTbl (processPacket cfg s pkt).1.flows smp.flowname).map flowRec.min =
      some smp.minRtt ∧ smp.minRtt ≤ smp.rtt := by
  rcases processPacket_via_bidir cfg s pkt with ⟨hn, _⟩ | ⟨s1, fr, heq, hts, hcap, hoff, hlf⟩
  · rw [hn] at h; cases h
  · rw [heq] at h ⊢
    have hemit := processBidir_emit cfg s1 pkt _ _ fr smp h
    rw [hemit.2.1]
    exact ⟨(processBidir_emit_min cfg s1 pkt _ _ fr smp hlf h).1, hemit.2.2.2.1⟩


theorem creation_flowsB_lookup (fl : List (String × flowRec)) (pkt : Packet) (tm : Int) :
    lookupTbl (modifyTbl (modifyTbl (modifyTbl
        ((fwdKey pkt, freshRec (fwdKey pkt)) :: fl) (revKey pkt) wrRev)
        (fwdKey pkt) wrRev) (fwdKey pkt) (wrLastTm tm)) (fwdKey pkt) =
      some { freshRec (fwdKey pkt) with revFlow := true, last_tm := tm } := by
  by_cases hself : revKey pkt = fwdKey pkt
  · rw [lookupTbl_modifyTbl_self, lookupTbl_modifyTbl_self, hself,
      lookupTbl_modifyTbl_self, lookupTbl_cons, if_pos rfl]
    rfl
  · rw [lookupTbl_modifyTbl_self, lookupTbl_modifyTbl_self,
      lookupTbl_modifyTbl_ne _ _ _ _ (fun hh => hself hh.symm),
      lookupTbl_cons, if_pos rfl]
    rfl

theorem processBidir_min_at (cfg : Config) (s : PState) (pkt : Packet)
    (tsval tsecr : Nat) (fr : flowRec)
    (hfr : lookupTbl s.flows (fwdKey pkt) = some fr) :
    ∃ m, (lookupTbl (processBidir cfg s pkt tsval tsecr fr).1.flows (fwdKey pkt)).map
        flowRec.min = some m ∧
      (m = fr.min ∨
        ∃ smp, (processBidir cfg s pkt tsval tsecr fr).2 = some smp ∧
          smp.flowname = fwdKey pkt ∧ m = smp.minRtt ∧ smp.minRtt ≤ smp.rtt) := by
  cases hout : (processBidir cfg s pkt tsval tsecr fr).2 with
  | some smp =>
    have hemit := processBidir_emit cfg s pkt tsval tsecr fr smp hout
    have hm := processBidir_emit_min cfg s pkt tsval tsecr fr smp hfr hout
    exact ⟨smp.minRtt, hm.1, Or.inr ⟨smp, rfl, hemit.2.1, rfl, hemit.2.2.2.1⟩⟩
  | none =>
    refine ⟨fr.min, ?_, Or.inl rfl⟩
    rw [processBidir_noemit_min cfg s pkt tsval tsecr fr (fwdKey pkt) hout, hfr]
    rfl

theorem processPacket_create_min (cfg : Config) (s : PState) (pkt : Packet)
    (fr' : flowRec) (hfr : lookupTbl s.flows (fwdKey pkt) = none)
    (h' : lookupTbl (processPacket cfg s pkt).1.flows (fwdKey pkt) = some fr') :
    fr'.min = minSentinel ∨
    (∃ smp, (processPacket cfg s pkt).2 = some smp ∧ smp.flowname = fwdKey pkt ∧
      fr'.min = smp.minRtt ∧ smp.minRtt ≤ smp.rtt) := by
  revert h'
  cases htcp : pkt.isTCP with
  | false =>
    rw [processPacket_not_tcp cfg s pkt htcp]
    intro h'
    rw [hfr] at h'
    cases h'
  | true =>
    by_cases hel : noTSCond pkt
    · rw [processPacket_ineligible cfg s pkt htcp hel]
      intro h'
      rw [hfr] at h'
      cases h'
    · cases hip : pkt.netv4or6 with
      | false =>
        rw [processPacket_not_ip cfg s pkt htcp hel hip]
        intro h'
        rw [hfr] at h'
        cases h'
      | true =>
        have hcf := clockUpdate_fields s pkt
        rw [processPacket_eligible cfg s pkt htcp hel hip]
        simp only [processFlow, hcf.1, hfr]
        split
        · intro h'
          dsimp only at h'
          rw [hcf.1, hfr] at h'
          cases h'
        · split
          · intro h'
            obtain ⟨m, hm, hc⟩ := processBidir_min_at cfg
              { clockUpdate s pkt with
                flows := modifyTbl (modifyTbl (modifyTbl
                  ((fwdKey pkt, freshRec (fwdKey pkt)) :: s.flows) (revKey pkt) wrRev)
                  (fwdKey pkt) wrRev) (fwdKey pkt) (wrLastTm (clockUpdate s pkt).capTm),
                flowCnt := (clockUpdate s pkt).flowCnt + 1 }
              pkt (getTSFromTCPOpts pkt.opts).1 (getTSFromTCPOpts pkt.opts).2
              { freshRec (fwdKey pkt) with revFlow := true, last_tm := (clockUpdate s pkt).capTm }
              (creation_flowsB_lookup s.flows pkt (clockUpdate s pkt).capTm)
            rw [h'] at hm
            simp only [Option.map_some'] at hm
            injection hm with hm
            rcases hc with hc | ⟨smp, hsm, hfn, hmm, hle⟩
            · exact Or.inl (by rw [hm, hc]; rfl)
            · exact Or.inr ⟨smp, hsm, hfn, by rw [hm, hmm], hle⟩
          · intro h'
            dsimp only at h'
            rw [lookupTbl_modifyTbl_self, lookupTbl_cons, if_pos rfl] at h'
            simp only [Option.map_some'] at h'
            injection h' with h'
            exact Or.inl (by rw [← h']; rfl)

/-- While a flow record stays in the table, its `min` field can only
decrease along the run. -/
theorem min_propagate (cfg : Config) (f : String) :
    ∀ (l2 : List Ev) (s0 : PState), (s0.flows.map Prod.fst).Nodup →
      ∀ fr0, lookupTbl s0.flows f = some fr0 →
      (∀ s' ∈ statesFrom cfg s0 l2, (lookupTbl s'.flows f).isSome = true) →
      ∀ frF, lookupTbl (runEvents cfg s0 l2).1.flows f = some frF →
        frF.min ≤ fr0.min := by
  intro l2
  induction l2 with
  | nil =>
    intro s0 _ fr0 h0 _ frF hF
    simp only [runEvents] at hF
    rw [h0] at hF
    cases hF
    exact le_refl _
  | cons e rest ih =>
    intro s0 hnd fr0 h0 hpres frF hF
    have hpres1 : (lookupTbl (stepEv cfg s0 e).1.flows f).isSome = true :=
      hpres (stepEv cfg s0 e).1 (by simp [statesFrom])
    obtain ⟨fr1, hfr1⟩ := Option.isSome_iff_exists.mp hpres1
    have hle1 : fr1.min ≤ fr0.min := stepEv_minLe cfg s0 e f fr0 fr1 hnd h0 hfr1
    have hnd1 := stepEv_nodup cfg s0 e hnd
    have hpres' : ∀ s' ∈ statesFrom cfg (stepEv cfg s0 e).1 rest,
        (lookupTbl s'.flows f).isSome = true := by
      intro s' hs'
      exact hpres s' (by simp only [statesFrom, List.mem_cons]; exact Or.inr hs')
    have hF' : lookupTbl (runEvents cfg (stepEv cfg s0 e).1 rest).1.flows f =
        some frF := hF
    exact le_trans (ih (stepEv cfg s0 e).1 hnd1 fr1 hfr1 hpres' frF hF') hle1

/-! ## C3: min-RTT sentinel, monotonicity, and sample bound -/

/-- C3: a newly created flow record carries the `1e30`-seconds sentinel
as its `min` (unless the very packet that created it also emitted the
flow's first sample, in which case `min` equals that sample's printed
minimum, which is at most its RTT); across any event — packet or
`cleanUp` — a surviving record's `min` never increases; and once a
sample is emitted, as long as the flow record stays in the table the
record's `min` stays at or below that sample's RTT. -/
theorem C3_min_sentinel_monotone_bound (cfg : Config) (s : PState) (pkt : Packet) :
    (∀ fr', lookupTbl s.flows (fwdKey pkt) = none →
      lookupTbl (processPacket cfg s pkt).1.flows (fwdKey pkt) = some fr' →
      fr'.min = minSentinel ∨
      (∃ smp, (processPacket cfg s pkt).2 = some smp ∧ smp.flowname = fwdKey pkt ∧
        fr'.min = smp.minRtt ∧ smp.minRtt ≤ smp.rtt)) ∧
    (∀ e k fr fr', (s.flows.map Prod.fst).Nodup → lookupTbl s.flows k = some fr →
      lookupTbl (stepEv cfg s e).1.flows k = some fr' → fr'.min ≤ fr.min) ∧
    (∀ (l2 : List Ev) (smp : Sample), (processPacket cfg s pkt).2 = some smp →
      ((processPacket cfg s pkt).1.flows.map Prod.fst).Nodup →
      (∀ s' ∈ statesFrom cfg (processPacket cfg s pkt).1 l2,
        (lookupTbl s'.flows smp.flowname).isSome = true) →
      ∀ frF, lookupTbl (runEvents cfg (processPacket cfg s pkt).1 l2).1.flows
          smp.flowname = some frF →
        frF.min ≤ smp.rtt) := by
  refine ⟨?_, ?_, ?_⟩
  · intro fr' hn h'
    exact processPacket_create_min cfg s pkt fr' hn h'
  · intro e k fr fr' hnd hfr h'
    exact stepEv_minLe cfg s e k fr fr' hnd hfr h'
  · intro l2 smp hout hnd hpres frF hF
    obtain ⟨hm, hle⟩ := processPacket_emit_min cfg s pkt smp hout
    obtain ⟨frP, hfrP, hminP⟩ := Option.map_eq_some'.mp hm
    have := min_propagate cfg smp.flowname l2 (processPacket cfg s pkt).1 hnd
      frP hfrP hpres frF hF
    rw [hminP] at this
    exact le_trans this hle

/-- The flow record of `pW`'s forward flow after its sample at `sLoc`. -/
def frPost : flowRec :=
  { flowname := "10.0.0.1:1000+10.0.0.2:2000", last_tm := 0, min := -1,
    bytesSnt := 100, lstBytesSnt := 100, bytesDep := 0, revFlow := true }

/-- The sample `processPacket cfgOpen sLoc pW` emits. -/
def smpW : Sample :=
  { rtt := -1, minRtt := -1, fBytes := 0, dBytes := 0, pBytes := 100,
    flowname := "10.0.0.1:1000+10.0.0.2:2000", capTm := 0,
    tsKey := "10.0.0.2:2000+10.0.0.1:1000+5" }

theorem C3_min_sentinel_monotone_bound_witness :
    (frU.min = minSentinel ∨
      (∃ smp, (processPacket cfgOpen initState pW).2 = some smp ∧
        smp.flowname = fwdKey pW ∧ frU.min = smp.minRtt ∧ smp.minRtt ≤ smp.rtt)) ∧
    frU.min ≤ frU.min ∧
    frPost.min ≤ smpW.rtt := by
  have hA := C3_min_sentinel_monotone_bound cfgOpen initState pW
  have hB := C3_min_sentinel_monotone_bound cfgOpen sExist pW
  have hC := C3_min_sentinel_monotone_bound cfgOpen sLoc pW
  refine ⟨hA.1 frU (by decide) (by decide), ?_, ?_⟩
  · exact hB.2.1 (Ev.pkt pW) "10.0.0.1:1000+10.0.0.2:2000" frU frU (by decide)
      (by decide) (by decide)
  · exact hC.2.2 [] smpW (by decide) (by decide) (by intro s' hs'; cases hs')
      frPost (by decide)

/-! ## C1 infrastructure: clock invariant and membership lemmas -/

theorem lookupTbl_some_mem {α : Type} (tbl : List (String × α)) (k : String) (v : α)
    (h : lookupTbl tbl k = some v) : (k, v) ∈ tbl := by
  induction tbl with
  | nil => cases h
  | cons hd tl ih =>
    obtain ⟨k0, v0⟩ := hd
    by_cases hk : k0 = k
    · rw [lookupTbl_cons, if_pos hk] at h
      cases h
      subst hk
      exact List.mem_cons_self _ _
    · rw [lookupTbl_cons, if_neg hk] at h
      exact List.mem_cons_of_mem _ (ih h)

theorem mem_modifyTbl {α : Type} (tbl : List (String × α)) (k : String) (f : α → α)
    (p : String × α) (hp : p ∈ modifyTbl tbl k f) :
    p ∈ tbl ∨ ∃ v, (p.1, v) ∈ tbl ∧ p.2 = f v := by
  induction tbl with
  | nil => cases hp
  | cons hd tl ih =>
    obtain ⟨k0, v0⟩ := hd
    by_cases hk : k0 = k
    · rw [modifyTbl, if_pos hk] at hp
      rcases List.mem_cons.mp hp with h | h
      · right
        exact ⟨v0, by rw [h]; exact List.mem_cons_self _ _, by rw [h]⟩
      · exact Or.inl (List.mem_cons_of_mem _ h)
    · rw [modifyTbl, if_neg hk] at hp
      rcases List.mem_cons.mp hp with h | h
      · exact Or.inl (h ▸ List.mem_cons_self _ _)
      · rcases ih h with h' | ⟨v, hv, he⟩
        · exact Or.inl (List.mem_cons_of_mem _ h')
        · exact Or.inr ⟨v, List.mem_cons_of_mem _ hv, he⟩

theorem mem_addTS (tbl : List (String × tsInfo)) (k : String) (x : tsInfo)
    (p : String × tsInfo) (hp : p ∈ addTS tbl k x) : p ∈ tbl ∨ p = (k, x) := by
  unfold addTS at hp
  split at hp
  · exact Or.inl hp
  · rcases List.mem_cons.mp hp with h | h
    · exact Or.inr h
    · exact Or.inl h

theorem mem_ite_addTS (c : Prop) [Decidable c] (tbl : List (String × tsInfo))
    (k : String) (x : tsInfo) (p : String × tsInfo)
    (hp : p ∈ (if c then addTS tbl k x else tbl)) : p ∈ tbl ∨ p = (k, x) := by
  split at hp
  · exact mem_addTS tbl k x p hp
  · exact Or.inl hp

/-- Where the `t` field of any TS-table entry after `processBidir` comes
from: an existing entry (possibly negated by consumption), or the entry
this packet deposited at the current capture time (possibly negated). -/
theorem processBidir_tsTbl_mem (cfg : Config) (s : PState) (pkt : Packet)
    (tsval tsecr : Nat) (fr : flowRec) (p : String × tsInfo)
    (hp : p ∈ (processBidir cfg s pkt tsval tsecr fr).1.tsTbl) :
    (∃ q ∈ s.tsTbl, p.2.t = q.2.t ∨ p.2.t = -q.2.t) ∨
    (p.2.t = s.capTm ∨ p.2.t = -s.capTm) := by
  revert hp
  simp only [processBidir]
  split
  · split
    · dsimp only
      intro hp
      rcases mem_modifyTbl _ _ _ _ hp with hp1 | ⟨v, hv, he⟩
      · rcases mem_ite_addTS _ _ _ _ _ hp1 with hq | hq
        · exact Or.inl ⟨p, hq, Or.inl rfl⟩
        · exact Or.inr (Or.inl (by rw [hq]))
      · rcases mem_ite_addTS _ _ _ _ _ hv with hq | hq
        · exact Or.inl ⟨(p.1, v), hq, Or.inr (by rw [he]; rfl)⟩
        · right
          right
          rw [he]
          show -v.t = -s.capTm
          injection hq with h1 h2
          rw [h2]
    · dsimp only
      intro hp
      rcases mem_ite_addTS _ _ _ _ _ hp with hq | hq
      · exact Or.inl ⟨p, hq, Or.inl rfl⟩
      · exact Or.inr (Or.inl (by rw [hq]))
  · dsimp only
    intro hp
    rcases mem_ite_addTS _ _ _ _ _ hp with hq | hq
    · exact Or.inl ⟨p, hq, Or.inl rfl⟩
    · exact Or.inr (Or.inl (by rw [hq]))

theorem processPacket_clock (cfg : Config) (s : PState) (pkt : Packet) :
    ((processPacket cfg s pkt).1.offTm = s.offTm ∧
     (processPacket cfg s pkt).1.capTm = s.capTm ∧
     (processPacket cfg s pkt).1.tsTbl = s.tsTbl ∧
     (processPacket cfg s pkt).2 = none) ∨
    ((processPacket cfg s pkt).1.offTm = (clockUpdate s pkt).offTm ∧
     (processPacket cfg s pkt).1.capTm = (clockUpdate s pkt).capTm) := by
  cases htcp : pkt.isTCP with
  | false => rw [processPacket_not_tcp cfg s pkt htcp]; exact Or.inl ⟨rfl, rfl, rfl, rfl⟩
  | true =>
    by_cases hel : noTSCond pkt
    · rw [processPacket_ineligible cfg s pkt htcp hel]; exact Or.inl ⟨rfl, rfl, rfl, rfl⟩
    · cases hip : pkt.netv4or6 with
      | false =>
        rw [processPacket_not_ip cfg s pkt htcp hel hip]; exact Or.inl ⟨rfl, rfl, rfl, rfl⟩
      | true =>
        rw [processPacket_eligible cfg s pkt htcp hel hip]
        obtain ⟨fl, tb, pc, ud, fc, out, hsh⟩ := processFlow_shape cfg
          (clockUpdate s pkt) pkt (getTSFromTCPOpts pkt.opts).1 (getTSFromTCPOpts pkt.opts).2
        rw [hsh]
        exact Or.inr ⟨rfl, rfl⟩

theorem processBidir_clk (cfg : Config) (s : PState) (pkt : Packet) (tsval tsecr : Nat)
    (fr : flowRec) :
    (processBidir cfg s pkt tsval tsecr fr).1.capTm = s.capTm ∧
    (processBidir cfg s pkt tsval tsecr fr).1.offTm = s.offTm := by
  obtain ⟨fl, tb, out, h⟩ := processBidir_shape cfg s pkt tsval tsecr fr
  rw [h]
  exact ⟨rfl, rfl⟩

/-- Effect of the clock-anchoring step on the clock fields: the relative
capture time stays non-negative, it only moves forward once the clock is
anchored, and the absolute time lands on the packet's stamp. -/
theorem clockUpdate_bounds (s : PState) (pkt : Packet) (hInv : ClockInv s)
    (hsec : 0 ≤ pkt.tsSec) (hfut : 0 ≤ s.offTm → absTm s ≤ pktTime pkt) :
    0 ≤ (clockUpdate s pkt).capTm ∧ 0 ≤ (clockUpdate s pkt).offTm ∧
    (0 ≤ s.offTm → s.capTm ≤ (clockUpdate s pkt).capTm) ∧
    absTm (clockUpdate s pkt) = pktTime pkt := by
  obtain ⟨hc, -, -⟩ := hInv
  unfold clockUpdate
  split
  · rename_i hoff
    simp only [absTm, pktTime, nsPerSec]
    exact ⟨by omega, hsec, fun h => absurd h (not_le.mpr hoff), by ring⟩
  · rename_i hoff
    rw [not_lt] at hoff
    have hf := hfut hoff
    simp only [absTm, pktTime, nsPerSec] at hf ⊢
    refine ⟨by omega, hoff, fun _ => by omega, by ring_nf⟩

theorem cleanUp_clockInv (cfg : Config) (s : PState) (n : Int) (hInv : ClockInv s) :
    ClockInv (cleanUp cfg s n) := by
  obtain ⟨hc, he, hb⟩ := hInv
  refine ⟨hc, fun hoff => ?_, fun q hq => ?_⟩
  · show s.tsTbl.filter _ = []
    rw [he hoff]
    rfl
  · exact hb q (List.mem_of_mem_filter hq)

/-- One packet step preserves the clock invariant, either leaves the
absolute clock untouched or advances it to the packet's stamp, and any
sample it emits has a non-negative RTT. -/
theorem clockInv_step_pkt (cfg : Config) (s : PState) (pkt : Packet)
    (hInv : ClockInv s) (hsec : 0 ≤ pkt.tsSec)
    (hfut : 0 ≤ s.offTm → absTm s ≤ pktTime pkt) :
    ClockInv (processPacket cfg s pkt).1 ∧
    ((absTm (processPacket cfg s pkt).1 = absTm s ∧
      (processPacket cfg s pkt).1.offTm = s.offTm) ∨
     (absTm (processPacket cfg s pkt).1 = pktTime pkt ∧
      0 ≤ (processPacket cfg s pkt).1.offTm)) ∧
    ∀ smp, (processPacket cfg s pkt).2 = some smp → 0 ≤ smp.rtt := by
  obtain ⟨hcu0, hcuo, hcule, hcuabs⟩ := clockUpdate_bounds s pkt hInv hsec hfut
  obtain ⟨hcap0, hemp, hbnd⟩ := hInv
  rcases processPacket_clock cfg s pkt with ⟨ho, hcp, hts, hnone⟩ | ⟨ho, hcp⟩
  · refine ⟨⟨?_, ?_, ?_⟩, Or.inl ⟨?_, ho⟩, ?_⟩
    · rw [hcp]; exact hcap0
    · intro hoff
      rw [hts]
      rw [ho] at hoff
      exact hemp hoff
    · intro q hq
      rw [hts] at hq
      rw [hcp]
      exact hbnd q hq
    · simp only [absTm, ho, hcp]
    · intro smp hsmp
      rw [hnone] at hsmp
      cases hsmp
  · rcases processPacket_via_bidir cfg s pkt with ⟨hn, hts⟩ |
      ⟨s1, fr, heq, hts1, hcap1, hoff1, hlf⟩
    · refine ⟨⟨?_, ?_, ?_⟩, Or.inr ⟨?_, ?_⟩, ?_⟩
      · rw [hcp]; exact hcu0
      · intro hoff
        rw [ho] at hoff
        exact absurd hcuo (not_le.mpr hoff)
      · intro q hq
        rw [hts] at hq
        rw [hcp]
        by_cases hoff0 : 0 ≤ s.offTm
        · obtain ⟨hb1, hb2⟩ := hbnd q hq
          have hle := hcule hoff0
          exact ⟨by omega, by omega⟩
        · rw [hemp (not_le.mp hoff0)] at hq
          cases hq
      · simp only [absTm, ho, hcp]
        simp only [absTm] at hcuabs
        exact hcuabs
      · rw [ho]; exact hcuo
      · intro smp hsmp
        rw [hn] at hsmp
        cases hsmp
    · refine ⟨⟨?_, ?_, ?_⟩, Or.inr ⟨?_, ?_⟩, ?_⟩
      · rw [hcp]; exact hcu0
      · intro hoff
        rw [ho] at hoff
        exact absurd hcuo (not_le.mpr hoff)
      · intro q hq
        rw [heq] at hq
        rw [hcp]
        rcases processBidir_tsTbl_mem cfg s1 pkt _ _ fr q hq with
          ⟨q0, hq0, hcase⟩ | hcase
        · rw [hts1] at hq0
          by_cases hoff0 : 0 ≤ s.offTm
          · obtain ⟨hb1, hb2⟩ := hbnd q0 hq0
            have hle := hcule hoff0
            rcases hcase with h | h <;> rw [h] <;> exact ⟨by omega, by omega⟩
          · rw [hemp (not_le.mp hoff0)] at hq0
            cases hq0
        · rw [hcap1] at hcase
          rcases hcase with h | h <;> rw [h] <;> exact ⟨by omega, by omega⟩
      · simp only [absTm, ho, hcp]
        simp only [absTm] at hcuabs
        exact hcuabs
      · rw [ho]; exact hcuo
      · intro smp hsmp
        rw [heq] at hsmp
        obtain ⟨-, -, hcapS, -, ⟨ti, hpos, hrtt, hcases⟩, -⟩ :=
          processBidir_emit cfg s1 pkt _ _ fr smp hsmp
        rcases hcases with hlk | ⟨-, hteq⟩
        · rw [hts1] at hlk
          have hmem := lookupTbl_some_mem _ _ _ hlk
          by_cases hoff0 : 0 ≤ s.offTm
          · have hb := hbnd _ hmem
            dsimp only at hb
            obtain ⟨hb1, hb2⟩ := hb
            have hle := hcule hoff0
            rw [hrtt, hcap1]
            omega
          · rw [hemp (not_le.mp hoff0)] at hmem
            cases hmem
        · rw [hrtt, hteq]
          omega

/-- Over any run whose packets carry non-negative, non-decreasing capture
stamps, every emitted RTT sample is non-negative. -/
theorem runEvents_rtt_nonneg (cfg : Config) :
    ∀ (evs : List Ev) (s : PState), ClockInv s →
      (∀ p ∈ pktsOf evs, 0 ≤ p.tsSec) →
      (pktsOf evs).Pairwise (fun p q => pktTime p ≤ pktTime q) →
      (∀ p ∈ pktsOf evs, 0 ≤ s.offTm → absTm s ≤ pktTime p) →
      ∀ smp ∈ (runEvents cfg s evs).2, 0 ≤ smp.rtt := by
  intro evs
  induction evs with
  | nil =>
    intro s _ _ _ _ smp hsmp
    simp only [runEvents] at hsmp
    cases hsmp
  | cons e rest ih =>
    intro s hInv hsec hpw hfut smp hsmp
    cases e with
    | clean =>
      simp only [pktsOf] at hsec hpw hfut
      simp only [runEvents, stepEv, Option.toList_none, List.nil_append] at hsmp
      refine ih (cleanUp cfg s s.capTm) (cleanUp_clockInv cfg s s.capTm hInv)
        hsec hpw ?_ smp hsmp
      intro p hp hoff
      have h1 : (cleanUp cfg s s.capTm).offTm = s.offTm := rfl
      have h2 : absTm (cleanUp cfg s s.capTm) = absTm s := rfl
      rw [h2]
      refine hfut p hp ?_
      rw [h1] at hoff
      exact hoff
    | pkt p =>
      simp only [pktsOf] at hsec hpw hfut
      have hp0 : p ∈ p :: pktsOf rest := List.mem_cons_self _ _
      obtain ⟨hInv', hA, hemit⟩ := clockInv_step_pkt cfg s p hInv (hsec p hp0) (hfut p hp0)
      obtain ⟨hhead, htail⟩ := List.pairwise_cons.mp hpw
      simp only [runEvents, stepEv] at hsmp
      rw [List.mem_append] at hsmp
      rcases hsmp with hsmp | hsmp
      · cases hout : (processPacket cfg s p).2 with
        | none =>
          rw [hout] at hsmp
          simp only [Option.toList_none] at hsmp
          cases hsmp
        | some smp1 =>
          rw [hout] at hsmp
          simp only [Option.toList_some, List.mem_singleton] at hsmp
          rw [hsmp]
          exact hemit smp1 hout
      · refine ih (processPacket cfg s p).1 hInv'
          (fun q hq => hsec q (List.mem_cons_of_mem _ hq)) htail ?_ smp hsmp
        intro q hq hoff
        rcases hA with ⟨hAeq, hoeq⟩ | ⟨hAeq, -⟩
        · rw [hAeq]
          refine hfut q (List.mem_cons_of_mem _ hq) ?_
          rw [hoeq] at hoff
          exact hoff
        · rw [hAeq]
          exact hhead q hq

/-- When `processPacket` emits a sample, its `rtt` is the current capture
time minus the stored `t` of the matched TS-table entry: the entry the
pre-state held at `(reverse key, TSecr)`, or (only when the pre-state had
none there) the entry this very packet deposited, whose `t` is the
current capture time. -/
theorem processPacket_emit_rtt (cfg : Config) (s : PState) (pkt : Packet) (smp : Sample)
    (h : (processPacket cfg s pkt).2 = some smp) :
    smp.capTm = (processPacket cfg s pkt).1.capTm ∧
    ∃ t0 : Int, 0 < t0 ∧ smp.rtt = smp.capTm - t0 ∧
      ((∃ fB dB : Int,
          lookupTbl s.tsTbl smp.tsKey = some { t := t0, fBytes := fB, dBytes := dB }) ∨
       (lookupTbl s.tsTbl smp.tsKey = none ∧ t0 = smp.capTm)) := by
  rcases processPacket_via_bidir cfg s pkt with ⟨hn, -⟩ |
    ⟨s1, fr, heq, hts1, hcap1, hoff1, hlf⟩
  · rw [hn] at h
    cases h
  · rw [heq] at h
    obtain ⟨-, -, hcapS, -, ⟨ti, hpos, hrtt, hcases⟩, -⟩ :=
      processBidir_emit cfg s1 pkt _ _ fr smp h
    constructor
    · rw [heq, hcapS]
      exact ((processBidir_clk cfg s1 pkt _ _ fr).1).symm
    · refine ⟨ti.t, hpos, ?_, ?_⟩
      · rw [hrtt, hcapS]
      · rcases hcases with hlk | ⟨hnone, hteq⟩
        · left
          rw [hts1] at hlk
          exact ⟨ti.fBytes, ti.dBytes, by rw [hlk]⟩
        · right
          rw [hts1] at hnone
          refine ⟨hnone, ?_⟩
          rw [hteq, hcapS]

/-- A sorted four-packet conversation: mutual SYNs, then one echoing data
packet in each direction, each yielding an RTT sample. -/
def evsS1 : List Ev :=
  [ .pkt (mkPkt "10.0.0.1" 1000 "10.0.0.2" 2000 100 0 true 1000 0),
    .pkt (mkPkt "10.0.0.2" 2000 "10.0.0.1" 1000 500 0 true 1000 50000000),
    .pkt (mkPkt "10.0.0.1" 1000 "10.0.0.2" 2000 101 500 false 1000 100000000),
    .pkt (mkPkt "10.0.0.2" 2000 "10.0.0.1" 1000 501 101 false 1000 150000000) ]

/-- **C1.** Every sample `processPacket` emits reports
`rtt = cap_tm − t` where `cap_tm` is the emitting packet's capture time
and `t` is the stored arrival time of the pending TS-table entry at
`(reverse key, TSecr)` — the entry already pending before the packet, or,
only when no entry was pending under that key, the one the packet itself
just deposited (with `t = cap_tm`); and over any run from the initial
state whose packets carry non-negative, non-decreasing capture stamps,
every emitted `rtt` is `≥ 0`. -/
theorem C1_rtt_pending_entry_nonneg (cfg : Config) :
    (∀ (s : PState) (pkt : Packet) (smp : Sample),
        (processPacket cfg s pkt).2 = some smp →
        smp.capTm = (processPacket cfg s pkt).1.capTm ∧
        ∃ t0 : Int, 0 < t0 ∧ smp.rtt = smp.capTm - t0 ∧
          ((∃ fB dB : Int,
              lookupTbl s.tsTbl smp.tsKey = some { t := t0, fBytes := fB, dBytes := dB }) ∨
           (lookupTbl s.tsTbl smp.tsKey = none ∧ t0 = smp.capTm))) ∧
    (∀ evs : List Ev, (∀ p ∈ pktsOf evs, 0 ≤ p.tsSec) →
        (pktsOf evs).Pairwise (fun p q => pktTime p ≤ pktTime q) →
        ∀ smp ∈ (runEvents cfg initState evs).2, 0 ≤ smp.rtt) := by
  constructor
  · exact fun s pkt smp h => processPacket_emit_rtt cfg s pkt smp h
  · intro evs hsec hpw
    refine runEvents_rtt_nonneg cfg evs initState ⟨by decide, fun _ => rfl, ?_⟩ hsec hpw ?_
    · intro q hq
      simp only [initState] at hq
      cases hq
    · intro p hp hoff
      exact absurd hoff (by decide)

theorem C1_rtt_pending_entry_nonneg_witness :
    ((processPacket cfgOpen sLoc pW).2 = some smpW ∧
     smpW.capTm = (processPacket cfgOpen sLoc pW).1.capTm ∧
     (∃ t0 : Int, 0 < t0 ∧ smpW.rtt = smpW.capTm - t0 ∧
       ((∃ fB dB : Int,
           lookupTbl sLoc.tsTbl smpW.tsKey = some { t := t0, fBytes := fB, dBytes := dB }) ∨
        (lookupTbl sLoc.tsTbl smpW.tsKey = none ∧ t0 = smpW.capTm)))) ∧
    ((∀ p ∈ pktsOf evsS1, 0 ≤ p.tsSec) ∧
     (pktsOf evsS1).Pairwise (fun p q => pktTime p ≤ pktTime q) ∧
     ∀ smp ∈ (runEvents cfgOpen initState evsS1).2, 0 ≤ smp.rtt) :=
  ⟨⟨by decide,
    (C1_rtt_pending_entry_nonneg cfgOpen).1 sLoc pW smpW (by decide)⟩,
   ⟨by decide, by decide,
    (C1_rtt_pending_entry_nonneg cfgOpen).2 evsS1 (by decide) (by decide)⟩⟩
